import Mathlib

/-!
Verification of the markdown-viewer's discovery, tree-modelling and
change-notification core against its natural-language specification.

The development shallowly embeds three source modules:
* `src/lib/file-tree.ts` — tree building, sorting, filtering, flattening;
* the file-discovery module (`discoverMarkdownFiles` and helpers);
* the server module (allowed-file map, rescan, watcher callback,
  file read/write handlers, live-notification stream).

External I/O (filesystem stat/readdir results, glob expansion, `git`
invocations, Node path functions) is modelled as explicit data or function
parameters; everything else is translated branch-for-branch from the source.
-/

namespace LMV

/-- Replace every backslash by a forward slash; models `p.replaceAll("\\", "/")`,
the body of `normalizePath` in `file-tree.ts` and of `toPosixPath` in the
discovery and server modules. -/
def toPosixPath (p : String) : String :=
  ⟨p.data.map (fun c => if c = '\\' then '/' else c)⟩

/-- Lower-case every character; models `String.prototype.toLowerCase` on the
ASCII-ish path and filter strings the program manipulates. -/
def strLower (s : String) : String := ⟨s.data.map Char.toLower⟩

/-- Split at `/`; models `String.prototype.split("/")`. -/
def splitSlash (p : String) : List String :=
  (p.data.splitOn '/').map (fun cs => (⟨cs⟩ : String))

/-- Models `String.prototype.startsWith(".")`. -/
def startsWithDot (s : String) : Bool :=
  match s.data with
  | [] => false
  | c :: _ => c == '.'

/-- Models `String.prototype.startsWith(t)`. -/
def strStartsWith (s t : String) : Bool := t.data.isPrefixOf s.data

/-- Models `String.prototype.endsWith(t)`. -/
def strEndsWith (s t : String) : Bool := t.data.isSuffixOf s.data

/-- Models `String.prototype.trim` (whitespace stripped from both ends). -/
def strTrim (s : String) : String :=
  ⟨((s.data.dropWhile Char.isWhitespace).reverse.dropWhile Char.isWhitespace).reverse⟩

/-- Substring occurrence test on character lists. -/
def charsInclude (sub : List Char) : List Char → Bool
  | [] => sub.isEmpty
  | c :: rest => sub.isPrefixOf (c :: rest) || charsInclude sub rest

/-- Models `String.prototype.includes(sub)`. -/
def strIncludes (s sub : String) : Bool := charsInclude sub.data s.data

/-- Case-insensitive markdown-extension test; models `isMarkdownPath` from the
discovery module (duplicated verbatim in the server module): lower-case the
path and test for a `.md` or `.markdown` suffix. -/
def isMarkdownPath (p : String) : Bool :=
  strEndsWith (strLower p) ".md" || strEndsWith (strLower p) ".markdown"

/-- Models `isHiddenPath` from the discovery module (duplicated in the server
module): split the posix-normalised path at `/`, drop empty segments, and test
whether some segment other than `.` and `..` starts with a dot. -/
def isHiddenPath (p : String) : Bool :=
  ((splitSlash (toPosixPath p)).filter (fun s => !s.data.isEmpty)).any
    (fun part => startsWithDot part && part != "." && part != "..")

/-- Three-valued lexicographic comparison of character lists by code point. -/
def charsCmp : List Char → List Char → Int
  | [], [] => 0
  | [], _ :: _ => -1
  | _ :: _, [] => 1
  | a :: as, b :: bs =>
    if a.toNat < b.toNat then -1
    else if b.toNat < a.toNat then 1
    else charsCmp as bs

/-- Models `compareStrings` from `file-tree.ts`:
`a.localeCompare(b, undefined, { sensitivity: "base" })`, i.e. a
case-insensitive total comparison, embedded as lexicographic comparison of the
lower-cased character sequences. -/
def compareStrings (a b : String) : Int :=
  charsCmp (strLower a).data (strLower b).data

/-- The four sort orders of `file-tree.ts` (`SortOrder`). -/
inductive SortOrder where
  | nameAsc
  | nameDesc
  | modifiedDesc
  | modifiedAsc
deriving DecidableEq

/-- `ApiFile` from `file-tree.ts`: the flat per-file record the server ships to
the tree builder.  Optional JS fields become `Option`; `mtimeMs` is a
millisecond timestamp, modelled as `Nat`. -/
structure ApiFile where
  path : String
  name : String
  mtimeMs : Option Nat := none
  isSymlink : Option Bool := none
  error : Option String := none

/-- `TreeNode` from `file-tree.ts`: tagged union of folder and file nodes. -/
inductive TreeNode where
  | folder (path name : String) (mtimeMs : Nat) (children : List TreeNode)
  | file (path name : String) (mtimeMs : Nat) (isSymlink : Bool) (error : Option String)

/-- The shared `name` field of a `TreeNode`. -/
def TreeNode.name : TreeNode → String
  | .folder _ n _ _ => n
  | .file _ n _ _ _ => n

/-- The shared `path` field of a `TreeNode`. -/
def TreeNode.path : TreeNode → String
  | .folder p _ _ _ => p
  | .file p _ _ _ _ => p

/-- The shared `mtimeMs` field of a `TreeNode`. -/
def TreeNode.mtimeMs : TreeNode → Nat
  | .folder _ _ m _ => m
  | .file _ _ m _ _ => m

/-- `n.kind === "folder"`. -/
def TreeNode.isFolder : TreeNode → Bool
  | .folder _ _ _ _ => true
  | .file _ _ _ _ _ => false

/-- `n.kind === "file"`. -/
def TreeNode.isFile : TreeNode → Bool
  | .folder _ _ _ _ => false
  | .file _ _ _ _ _ => true

/-- The comparator selected by `sortChildren`'s ternary chain: name ascending,
name descending (negated comparison), or the `mtimeMs` differences used for
`modified-asc` / `modified-desc`. -/
def sortCmp (so : SortOrder) (a b : TreeNode) : Int :=
  match so with
  | .nameAsc => compareStrings a.name b.name
  | .nameDesc => -(compareStrings a.name b.name)
  | .modifiedAsc => (a.mtimeMs : Int) - (b.mtimeMs : Int)
  | .modifiedDesc => (b.mtimeMs : Int) - (a.mtimeMs : Int)

/-- `cmp(a, b) <= 0`: the "a sorts no later than b" relation a JS
comparator-driven sort establishes. -/
def sortLe (so : SortOrder) (a b : TreeNode) : Bool := sortCmp so a b ≤ 0

/-- `sortChildren` from `file-tree.ts`: split the siblings into folders and
files, sort each group with the selected comparator (JS `Array.prototype.sort`
with a comparator is embedded as a stable merge sort by `cmp(a,b) <= 0`), and
put folders first. -/
def sortChildren (nodes : List TreeNode) (so : SortOrder) : List TreeNode :=
  (nodes.filter TreeNode.isFolder).mergeSort (sortLe so) ++
    (nodes.filter TreeNode.isFile).mergeSort (sortLe so)

/-- `pathSegments` from `file-tree.ts`:
`normalizePath(p).split("/").filter(Boolean)`. -/
def pathSegments (p : String) : List String :=
  (splitSlash (toPosixPath p)).filter (fun s => !s.data.isEmpty)

/-- `computeMtimeMs` from `file-tree.ts`: the file's `mtimeMs` when it is a
number, else `0`. -/
def computeMtimeMs (f : ApiFile) : Nat := f.mtimeMs.getD 0

/-- The file node `buildFileTree` pushes for `file` with final segment `name`:
path is the normalised original relative path, `isSymlink` is
`Boolean(file.isSymlink)`. -/
def mkFileNode (f : ApiFile) (name : String) : TreeNode :=
  .file (toPosixPath f.path) name (computeMtimeMs f) (f.isSymlink.getD false) f.error

/-- Cumulative folder path: `currentPath ? currentPath + "/" + seg : seg`. -/
def joinPath (cur seg : String) : String :=
  if cur = "" then seg else cur ++ "/" ++ seg

mutual

/-- One iteration of `buildFileTree`'s outer loop, functionally: walk the
non-final segments, creating or reusing folder nodes, and push the file node at
the end.  `cur` is the cumulative path of the parent folder (`""` at the root).
The source keys reused folders through a `folderIndex` map from cumulative path
to node; since a folder node with path `cur/seg` is created exactly once, as a
child of the folder with path `cur`, looking the cumulative path up in the
index is the same as searching the parent's children, which is what this
functional rendering does. -/
def insertFile (nodes : List TreeNode) (cur : String) (segs : List String)
    (f : ApiFile) : List TreeNode :=
  match segs with
  | [] => nodes
  | [last] => nodes ++ [mkFileNode f last]
  | seg :: rest => insertIntoFolder nodes (joinPath cur seg) seg rest f

/-- Find the folder child with cumulative path `fp` and insert the remaining
segments into it; if absent, append a fresh folder node (the source's
`folderIndex.set` plus `parent.children.push`). -/
def insertIntoFolder (nodes : List TreeNode) (fp seg : String)
    (rest : List String) (f : ApiFile) : List TreeNode :=
  match nodes with
  | [] => [.folder fp seg 0 (insertFile [] fp rest f)]
  | n :: ns =>
    match n with
    | .folder p nm m cs =>
      if p = fp then .folder p nm m (insertFile cs fp rest f) :: ns
      else .folder p nm m cs :: insertIntoFolder ns fp seg rest f
    | .file p nm m s e => .file p nm m s e :: insertIntoFolder ns fp seg rest f

end

/-- The forest produced by `buildFileTree`'s construction loop (the root's
children before mtime recomputation and sorting).  Files whose path has no
segments are skipped, as in the source. -/
def buildForest (files : List ApiFile) : List TreeNode :=
  files.foldl
    (fun acc f =>
      let segs := pathSegments f.path
      if segs.isEmpty then acc else insertFile acc "" segs f)
    []

mutual

/-- `recomputeFolderMtime` from `file-tree.ts`, functionally: recompute every
folder's `mtimeMs` bottom-up as the running maximum (starting from `0`) of its
children's recomputed `mtimeMs`. -/
def recomputeNode : TreeNode → TreeNode
  | .file p n m s e => .file p n m s e
  | .folder p n _ cs =>
    let cs2 := recomputeList cs
    .folder p n (cs2.foldl (fun acc c => max acc c.mtimeMs) 0) cs2

/-- `recomputeFolderMtime` applied to every tree in a sibling list. -/
def recomputeList : List TreeNode → List TreeNode
  | [] => []
  | c :: rest => recomputeNode c :: recomputeList rest

end

mutual

/-- `sortRec` from `buildFileTree`, functionally: every folder's children are
sorted with `sortChildren` and each child subtree is sorted recursively.  The
source assigns `node.children = sortChildren(node.children)` and then recurses
into the sorted children; this rendering recurses first and sorts the results,
which commutes because `sortChildren` reads only `kind`, `name` and `mtimeMs`,
all preserved by recursive sorting (`sortNode_source_order` below restates this
definition in the source's sort-then-recurse shape). -/
def sortNode (so : SortOrder) : TreeNode → TreeNode
  | .file p n m s e => .file p n m s e
  | .folder p n m cs => .folder p n m (sortChildren (sortKids so cs) so)

/-- Recursively sort each tree of a sibling list (the recursion of `sortRec`
into folder children). -/
def sortKids (so : SortOrder) : List TreeNode → List TreeNode
  | [] => []
  | c :: rest => sortNode so c :: sortKids so rest

end

/-- `sortRec` applied to the implicit root: sort the top-level sibling list and
every folder's children below it. -/
def sortForest (so : SortOrder) (nodes : List TreeNode) : List TreeNode :=
  sortChildren (sortKids so nodes) so

/-- `buildFileTree` from `file-tree.ts`: build the forest from the flat file
list, recompute folder mtimes bottom-up, then sort every sibling group. -/
def buildFileTree (files : List ApiFile) (so : SortOrder) : List TreeNode :=
  sortForest so (recomputeList (buildForest files))

mutual

/-- `filterRec` from `filterTree`, functionally.  Returns the surviving node
(`none` when pruned) together with the list of folder paths added to the
`autoExpand` set while processing this subtree.  A file survives iff the
lower-cased normalised path contains the query; a folder survives iff some
child survives, in which case its path is auto-expanded. -/
def filterNode (q : String) : TreeNode → Option TreeNode × List String
  | .file p n m s e =>
    (if strIncludes (strLower (toPosixPath p)) q then some (.file p n m s e) else none, [])
  | .folder p n m cs =>
    let res := filterForest q cs
    if res.1.isEmpty then (none, res.2) else (some (.folder p n m res.1), res.2 ++ [p])

/-- `filterRec` mapped over a sibling list, keeping survivors in order
(`children.map(filterRec).filter(Boolean)`) and accumulating auto-expand
additions. -/
def filterForest (q : String) : List TreeNode → List TreeNode × List String
  | [] => ([], [])
  | c :: rest =>
    let hd := filterNode q c
    let tl := filterForest q rest
    (match hd.1 with
     | some n => n :: tl.1
     | none => tl.1,
     hd.2 ++ tl.2)

end

/-- `filterTree` from `file-tree.ts`: trim and lower-case the filter text; an
empty query returns the forest unchanged with an empty auto-expand set,
otherwise prune with `filterRec`.  The auto-expand `Set` is modelled as the
list of paths added to it (only membership is ever consulted). -/
def filterTree (nodes : List TreeNode) (filterText : String) :
    List TreeNode × List String :=
  if (strLower (strTrim filterText)).data.isEmpty then (nodes, [])
  else filterForest (strLower (strTrim filterText)) nodes

/-- `VisibleNode` from `file-tree.ts`: a node paired with its depth. -/
structure VisibleNode where
  node : TreeNode
  depth : Nat

mutual

/-- `walk` from `flattenVisibleNodes`: emit the node, then, for an expanded
folder (path in `expandedFolders` or in `autoExpand`), its children one level
deeper. -/
def walkNode (expandedFolders autoExpand : List String) (depth : Nat) :
    TreeNode → List VisibleNode
  | .file p n m s e => [⟨.file p n m s e, depth⟩]
  | .folder p n m cs =>
    ⟨.folder p n m cs, depth⟩ ::
      (if expandedFolders.contains p || autoExpand.contains p then
        walkForest expandedFolders autoExpand (depth + 1) cs
      else [])

/-- `walk` over a sibling list. -/
def walkForest (expandedFolders autoExpand : List String) (depth : Nat) :
    List TreeNode → List VisibleNode
  | [] => []
  | c :: rest =>
    walkNode expandedFolders autoExpand depth c ++
      walkForest expandedFolders autoExpand depth rest

end

/-- `flattenVisibleNodes` from `file-tree.ts`: depth-first pre-order walk of
the visible part of the forest.  The expansion `Set`s are modelled as lists
consulted by membership. -/
def flattenVisibleNodes (nodes : List TreeNode)
    (expandedFolders autoExpand : List String) : List VisibleNode :=
  walkForest expandedFolders autoExpand 0 nodes

/-- A JS `Set` of strings in insertion order, modelled as a duplicate-free
list: `Set.prototype.add` appends unless the element is present. -/
def setAdd (out : List String) (p : String) : List String :=
  if out.contains p then out else out ++ [p]

/-- A directory entry as reported by `readdir(dir, { withFileTypes: true })`:
name plus one of the three kinds the scanner distinguishes.  Subdirectory
contents are carried inline so that the recursive scan is structural (the
source performs another `readdir` per subdirectory). -/
inductive FsEntry where
  | file (name : String)
  | symlink (name : String)
  | dir (name : String) (children : List FsEntry)

/-- `resolve(dir, entry.name)` for a plain `readdir` entry name (no
separators): the absolute path of the entry. -/
def resolveChild (dir name : String) : String := dir ++ "/" ++ name

mutual

/-- `scanDirectory` from the discovery module: walk direct entries, skipping
dot-named entries unless `includeHidden`, recursing into subdirectories only
when `recursive`, and adding markdown files and symlinks to the accumulated
insertion-ordered set `out`. -/
def scanDirectory (dir : String) (recursive includeHidden : Bool)
    (entries : List FsEntry) (out : List String) : List String :=
  match entries with
  | [] => out
  | e :: rest =>
    scanDirectory dir recursive includeHidden rest
      (scanEntry dir recursive includeHidden e out)

/-- The loop body of `scanDirectory` for one entry. -/
def scanEntry (dir : String) (recursive includeHidden : Bool)
    (e : FsEntry) (out : List String) : List String :=
  match e with
  | .dir name children =>
    if !includeHidden && startsWithDot name then out
    else if !recursive then out
    else scanDirectory (resolveChild dir name) recursive includeHidden children out
  | .file name =>
    if !includeHidden && startsWithDot name then out
    else if isMarkdownPath name then setAdd out (resolveChild dir name) else out
  | .symlink name =>
    if !includeHidden && startsWithDot name then out
    else if isMarkdownPath name then setAdd out (resolveChild dir name) else out

end

mutual

/-- The sequence of paths `scanDirectory` adds to its set, in add order
(duplicates kept).  Companion definition used to state first-seen ordering. -/
def scanDirAdds (dir : String) (recursive includeHidden : Bool) :
    List FsEntry → List String
  | [] => []
  | e :: rest =>
    scanEntryAdds dir recursive includeHidden e ++
      scanDirAdds dir recursive includeHidden rest

/-- The paths one entry contributes, in add order. -/
def scanEntryAdds (dir : String) (recursive includeHidden : Bool) :
    FsEntry → List String
  | .dir name children =>
    if !includeHidden && startsWithDot name then []
    else if !recursive then []
    else scanDirAdds (resolveChild dir name) recursive includeHidden children
  | .file name =>
    if !includeHidden && startsWithDot name then []
    else if isMarkdownPath name then [resolveChild dir name] else []
  | .symlink name =>
    if !includeHidden && startsWithDot name then []
    else if isMarkdownPath name then [resolveChild dir name] else []

end

/-- `filterByHidden` from the discovery module. -/
def filterByHidden (paths : List String) (includeHidden : Bool) : List String :=
  if includeHidden then paths else paths.filter (fun p => !isHiddenPath p)

/-- `filterByMarkdown` from the discovery module. -/
def filterByMarkdown (paths : List String) : List String :=
  paths.filter isMarkdownPath

/-- The loop of `uniqueInOrder`: `seen` is the JS `Set`, `out` the output
array. -/
def uniqueInOrderGo : List String → List String → List String → List String
  | [], _, out => out
  | p :: rest, seen, out =>
    if seen.contains p then uniqueInOrderGo rest seen out
    else uniqueInOrderGo rest (p :: seen) (out ++ [p])

/-- `uniqueInOrder` from the discovery module: first occurrence of each path,
in order. -/
def uniqueInOrder (paths : List String) : List String :=
  uniqueInOrderGo paths [] []

/-- Outcomes of the external `git` invocations made by `filterGitIgnored`:
whether `git` is on the `PATH`, the result of `git rev-parse --show-toplevel`,
the repository-relative mapping `toPosixPath(relative(repoRoot, abs))`, and the
result of `git check-ignore`. -/
structure GitEnv where
  gitAvailable : Bool
  revParseOk : Bool
  repoRoot : String
  relTo : String → String
  checkIgnoreExit : Int
  ignoredRel : List String

/-- The `relCandidates` array of `filterGitIgnored`: the repository-relative
images of the candidates, keeping only those inside the repository (not `..`
and not starting with `../`).  `relToAbs.has rel` in the source is equivalent
to membership here. -/
def relCandidatesOf (env : GitEnv) (absolutePaths : List String) : List String :=
  (absolutePaths.map env.relTo).filter
    (fun rel => !(rel == "..") && !strStartsWith rel "../")

/-- `filterGitIgnored` from the discovery module.  Every early return hands
back the candidate list unchanged (fail-open); otherwise candidates inside the
repository that `git check-ignore` reports are excluded, preserving order. -/
def filterGitIgnored (env : GitEnv) (absolutePaths : List String) : List String :=
  if absolutePaths.isEmpty then absolutePaths
  else if !env.gitAvailable then absolutePaths
  else if !env.revParseOk then absolutePaths
  else if env.repoRoot == "" then absolutePaths
  else if (relCandidatesOf env absolutePaths).isEmpty then absolutePaths
  else if !(env.checkIgnoreExit == 0 || env.checkIgnoreExit == 1) then absolutePaths
  else
    absolutePaths.filter fun abs =>
      if !(relCandidatesOf env absolutePaths).contains (env.relTo abs) then true
      else !env.ignoredRel.contains (env.relTo abs)

/-- One input token of `discoverMarkdownFiles`, pre-classified together with
the outcome of the external calls the source makes on it: `isGlobPattern`
dispatch, `resolve(cwd, input)`, `Bun.Glob(...).scan` match list (already
resolved against `cwd`), and `lstat`. -/
inductive DiscoverInput where
  | glob (ms : List String)
  | missing (absolutePath : String)
  | dirInput (input : String) (absolutePath : String) (entries : List FsEntry)
  | fileInput (absolutePath : String)
  | otherInput (absolutePath : String)

/-- `DiscoverOptions.strict` (`cwd` is folded into the pre-resolved paths of
`DiscoverInput`). -/
structure DiscoverOptions where
  recursive : Bool
  includeHidden : Bool
  strict : Option Bool := none

/-- The body of `discoverMarkdownFiles`' input loop for one input: glob
match lists are hidden- and markdown-filtered then added; a missing literal throws
in strict mode and is skipped otherwise; a directory is scanned unless the
*input string* is hidden-excluded; a literal file or symlink is added when it
has a markdown extension; anything else is skipped. -/
def discoverStep (recursive includeHidden strict : Bool)
    (discovered : List String) : DiscoverInput → Except String (List String)
  | .glob ms =>
    .ok ((filterByMarkdown (filterByHidden ms includeHidden)).foldl setAdd discovered)
  | .missing abs =>
    if strict then .error ("Input not found: " ++ abs) else .ok discovered
  | .dirInput input abs entries =>
    if !includeHidden && isHiddenPath input then .ok discovered
    else .ok (scanDirectory abs recursive includeHidden entries discovered)
  | .fileInput abs =>
    .ok (if isMarkdownPath abs then setAdd discovered abs else discovered)
  | .otherInput _ => .ok discovered

/-- `discoverMarkdownFiles`' input loop. -/
def discoverLoop (recursive includeHidden strict : Bool)
    (discovered : List String) : List DiscoverInput → Except String (List String)
  | [] => .ok discovered
  | i :: rest =>
    match discoverStep recursive includeHidden strict discovered i with
    | .error e => .error e
    | .ok d => discoverLoop recursive includeHidden strict d rest

/-- The full sequence of paths the input loop adds to `discovered`, in add
order with duplicates kept: the raw first-discovery candidate sequence. -/
def discoverAdds (recursive includeHidden : Bool) :
    List DiscoverInput → List String
  | [] => []
  | i :: rest =>
    (match i with
     | .glob ms => filterByMarkdown (filterByHidden ms includeHidden)
     | .missing _ => []
     | .dirInput input abs entries =>
       if !includeHidden && isHiddenPath input then []
       else scanDirAdds abs recursive includeHidden entries
     | .fileInput abs => if isMarkdownPath abs then [abs] else []
     | .otherInput _ => []) ++ discoverAdds recursive includeHidden rest

/-- `discoverMarkdownFiles` from the discovery module: run the input loop over
an insertion-ordered set, apply the git-ignore filter to the accumulated
array, and deduplicate preserving order. -/
def discoverMarkdownFiles (env : GitEnv) (inputs : List DiscoverInput)
    (opts : DiscoverOptions) : Except String (List String) :=
  match discoverLoop opts.recursive opts.includeHidden
      (!(opts.strict == some false)) [] inputs with
  | .error e => .error e
  | .ok discovered => .ok (uniqueInOrder (filterGitIgnored env discovered))

/-- The Node path functions the server module calls
(`resolve`, `relative`, `basename`), treated as an external environment. -/
structure PathEnv where
  resolve : String → String → String
  relative : String → String → String
  basename : String → String

/-- The mutable state `startServer` closes over: the insertion-ordered set of
absolute paths, the relative-to-absolute allowed-file map (an insertion-ordered
JS `Map`, modelled as an association list), the single-file flag and the
pending-refresh flag. -/
structure ServerState where
  absoluteFiles : List String
  allowedFiles : List (String × String)
  singleFile : Bool
  pendingRefresh : Bool

/-- `buildAllowedFiles` from the server module: map each absolute path to its
posix relative path, keeping the first absolute path seen for every relative
key. -/
def buildAllowedFiles (env : PathEnv) (cwd : String) (files : List String) :
    List (String × String) :=
  files.foldl
    (fun allowed abs =>
      if (allowed.lookup (toPosixPath (env.relative cwd abs))).isSome then allowed
      else allowed ++ [(toPosixPath (env.relative cwd abs), abs)])
    []

/-- `rescan` from the server module, with the discovery outcome passed in
(`discoverMarkdownFiles` runs in non-strict mode but its glob scans and
directory reads can still fail; a failure leaves all state untouched and
returns `false`).  On success every discovered path is added to
`absoluteFiles`, the allowed map and single-file flag are rebuilt, and
pending-refresh is cleared. -/
def rescan (env : PathEnv) (cwd : String) (res : Except String (List String))
    (st : ServerState) : ServerState × Bool :=
  match res with
  | .error _ => (st, false)
  | .ok discovered =>
    let absoluteFiles := discovered.foldl setAdd st.absoluteFiles
    let allowedFiles := buildAllowedFiles env cwd absoluteFiles
    ({ absoluteFiles := absoluteFiles,
       allowedFiles := allowedFiles,
       singleFile := allowedFiles.length == 1,
       pendingRefresh := false }, true)

/-- The events the server writes to the live-notification stream: the initial
`ready` signal, `fs-changed` (carrying the pending-refresh flag) and
`file-changed` (carrying a relative path). -/
inductive SseEvent where
  | ready
  | fsChanged (pendingRefresh : Bool)
  | fileChanged (path : String)
deriving DecidableEq

/-- `maybeSetPendingRefresh` from the server module as a transition on the
flag: when already set nothing happens, otherwise the flag is set and a single
`fs-changed { pendingRefresh: true }` broadcast is emitted. -/
def maybeSetPendingRefresh (pending : Bool) : Bool × List SseEvent :=
  if pending then (pending, []) else (true, [.fsChanged true])

/-- The watcher callback of `setupWatchers` as a transition: given the
allowed-map keys and the pending-refresh flag, a raw event for root `absRoot`
with optional entry name `filename` yields the new flag and the broadcasts
emitted, in order.  A missing name conservatively sets pending-refresh; a
hidden-excluded name is ignored; a name whose relative path is an allowed key
broadcasts `file-changed`; otherwise a markdown-extension path sets
pending-refresh; anything else is ignored. -/
def watchCallback (env : PathEnv) (cwd : String) (includeHidden : Bool)
    (allowedKeys : List String) (pending : Bool) (absRoot : String)
    (filename : Option String) : Bool × List SseEvent :=
  match filename with
  | none => maybeSetPendingRefresh pending
  | some name =>
    if !includeHidden && isHiddenPath name then (pending, [])
    else
      let absPath := env.resolve absRoot name
      let relPath := toPosixPath (env.relative cwd absPath)
      if allowedKeys.contains relPath then (pending, [.fileChanged relPath])
      else if isMarkdownPath absPath then maybeSetPendingRefresh pending
      else (pending, [])

/-- JSON values, for the parsed request bodies of the write handler. -/
inductive JsonVal where
  | str (s : String)
  | num (n : Int)
  | boolean (b : Bool)
  | null
  | arr (xs : List JsonVal)
  | obj (fields : List (String × JsonVal))

/-- Reading `body.content` from a parsed JSON body: property access on `null`
throws a `TypeError` (caught by the handler's `try`); on an object it yields
the field or `undefined`; on any other value it yields `undefined`. -/
def contentField : JsonVal → Except Unit (Option JsonVal)
  | .null => .error ()
  | .obj fields => .ok (fields.lookup "content")
  | _ => .ok none

/-- `typeof v === "string"`. -/
def isStrVal : JsonVal → Bool
  | .str _ => true
  | _ => false

/-- Responses of the `/api/file` handlers, by payload shape and status. -/
inductive ApiResponse where
  | fileContent (content filename path : String)
  | putSuccess
  | apiError (status : Nat) (message : String)
deriving DecidableEq

/-- Filesystem interactions of the `/api/file` handlers, recorded in order:
the `exists` probe, the content read, the content write. -/
inductive FileEffect where
  | probe (abs : String)
  | readF (abs : String)
  | writeF (abs : String) (content : String)
deriving DecidableEq

/-- The requested path of both `/api/file` handlers:
`url.searchParams.get("path") || undefined` (an absent or empty query
parameter is `undefined`), falling back to the first allowed key in single-file
mode. -/
def resolveRequestPath (st : ServerState) (pathParam : Option String) :
    Option String :=
  let requestedPath := match pathParam with
    | none => none
    | some s => if s == "" then none else some s
  match requestedPath with
  | some p => some p
  | none => if st.singleFile then (st.allowedFiles.head?.map Prod.fst) else none

/-- The `/api/file` GET handler: missing path yields 400, a path outside the
allowed map yields 403 with no filesystem access; otherwise the file is probed
(404 when absent) and read (500 when the read throws, modelled by
`fsRead = none`). -/
def apiFileGet (env : PathEnv) (st : ServerState) (pathParam : Option String)
    (fsExists : String → Bool) (fsRead : String → Option String) :
    ApiResponse × List FileEffect :=
  match resolveRequestPath st pathParam with
  | none => (.apiError 400 "Missing required query param: path", [])
  | some rel =>
    match st.allowedFiles.lookup rel with
    | none => (.apiError 403 "File not allowed", [])
    | some abs =>
      if !fsExists abs then (.apiError 404 "File not found", [.probe abs])
      else
        match fsRead abs with
        | none => (.apiError 500 "Failed to read file", [.probe abs, .readF abs])
        | some content =>
          (.fileContent content (env.basename abs) rel, [.probe abs, .readF abs])

/-- The `/api/file` PUT handler: missing path yields 400, a path outside the
allowed map yields 403 with no filesystem access; a body that fails to parse
or is `null` yields 500, a body whose `content` field is not a string yields
400 ("Invalid content"), all without writing; otherwise the content is written
(500 when the write throws, modelled by `writeOk = false`). -/
def apiFilePut (st : ServerState) (pathParam : Option String)
    (body : Except Unit JsonVal) (writeOk : Bool) :
    ApiResponse × List FileEffect :=
  match resolveRequestPath st pathParam with
  | none => (.apiError 400 "Missing required query param: path", [])
  | some rel =>
    match st.allowedFiles.lookup rel with
    | none => (.apiError 403 "File not allowed", [])
    | some abs =>
      match body with
      | .error _ => (.apiError 500 "Failed to write file", [])
      | .ok j =>
        match contentField j with
        | .error _ => (.apiError 500 "Failed to write file", [])
        | .ok none => (.apiError 400 "Invalid content", [])
        | .ok (some v) =>
          match v with
          | .str content =>
            if writeOk then (.putSuccess, [.writeF abs content])
            else (.apiError 500 "Failed to write file", [.writeF abs content])
          | _ => (.apiError 400 "Invalid content", [])

/-- The broadcast registry of the live-notification endpoint: the per-client
logs of events enqueued so far (in connection order) and the pending-refresh
flag read at connection time. -/
structure SseModel where
  clients : List (List SseEvent)
  pending : Bool

/-- `broadcast` from the server module: enqueue the event to every connected
client. -/
def broadcastAll (e : SseEvent) (m : SseModel) : SseModel :=
  { m with clients := m.clients.map (fun log => log ++ [e]) }

/-- The chunks the `/api/watch` stream's `start` callback enqueues to a fresh
client: the `ready` event always, then `fs-changed { pendingRefresh: true }`
only when the flag is currently set.  (The periodic `: ping` keep-alive
comments are not events and are not modelled.) -/
def connectInit (pending : Bool) : List SseEvent :=
  [.ready] ++ (if pending then [.fsChanged true] else [])

/-- A new subscriber connecting to `/api/watch`: it is registered and receives
exactly the initial chunks, with no replay of earlier broadcasts. -/
def connectClient (m : SseModel) : SseModel :=
  { m with clients := m.clients ++ [connectInit m.pending] }

/-- Recogniser for `fs-changed` events. -/
def isFsChangedEvent : SseEvent → Bool
  | .fsChanged _ => true
  | _ => false

/-- Maximum of a list of timestamps, `0` for the empty list — the running
maximum `recomputeFolderMtime` computes. -/
def maxMtime (l : List Nat) : Nat := l.foldl max 0

mutual

/-- The modification times of the transitive *file* descendants of a node (a
file is its own descendant). -/
def fileDescMtimes : TreeNode → List Nat
  | .file _ _ m _ _ => [m]
  | .folder _ _ _ cs => fileDescMtimesF cs

/-- The modification times of the transitive file descendants of a forest. -/
def fileDescMtimesF : List TreeNode → List Nat
  | [] => []
  | c :: rest => fileDescMtimes c ++ fileDescMtimesF rest

end

mutual

/-- The spec's folder-mtime invariant: every folder's `mtimeMs`, at every
depth, equals the maximum modification time over its transitive file
descendants (`0` when it has none, since `maxMtime [] = 0`). -/
inductive MtimeOk : TreeNode → Prop where
  | file : ∀ p n m s e, MtimeOk (.file p n m s e)
  | folder : ∀ p n m cs, MtimeOkF cs → m = maxMtime (fileDescMtimesF cs) →
      MtimeOk (.folder p n m cs)

/-- `MtimeOk` for every tree of a forest. -/
inductive MtimeOkF : List TreeNode → Prop where
  | nil : MtimeOkF []
  | cons : ∀ c rest, MtimeOk c → MtimeOkF rest → MtimeOkF (c :: rest)

end

/-- A sibling group in the shape `sortChildren` produces: all folders first,
then all files, each block ordered by the selected comparator. -/
def SiblingsOrdered (so : SortOrder) (nodes : List TreeNode) : Prop :=
  ∃ fs gs, nodes = fs ++ gs ∧
    (∀ n ∈ fs, TreeNode.isFolder n = true) ∧
    (∀ n ∈ gs, TreeNode.isFile n = true) ∧
    fs.Pairwise (fun a b => sortLe so a b = true) ∧
    gs.Pairwise (fun a b => sortLe so a b = true)

mutual

/-- Every sibling group of the tree, at every depth, is in `sortChildren`
shape. -/
inductive SortedNode (so : SortOrder) : TreeNode → Prop where
  | file : ∀ p n m s e, SortedNode so (.file p n m s e)
  | folder : ∀ p n m cs, SiblingsOrdered so cs → SortedForest so cs →
      SortedNode so (.folder p n m cs)

/-- `SortedNode` for every tree of a forest. -/
inductive SortedForest (so : SortOrder) : List TreeNode → Prop where
  | nil : SortedForest so []
  | cons : ∀ c rest, SortedNode so c → SortedForest so rest →
      SortedForest so (c :: rest)

end

mutual

/-- `PrunedNode t' t`: `t'` is `t` with some subtrees removed and no sibling
reordered — file nodes survive unchanged, folder nodes keep their fields and
prune their children elementwise in order. -/
inductive PrunedNode : TreeNode → TreeNode → Prop where
  | file : ∀ p n m s e, PrunedNode (.file p n m s e) (.file p n m s e)
  | folder : ∀ p n m cs' cs, PrunedForest cs' cs →
      PrunedNode (.folder p n m cs') (.folder p n m cs)

/-- Order-preserving pruning of a sibling list: every surviving child appears
under the original relative order. -/
inductive PrunedForest : List TreeNode → List TreeNode → Prop where
  | nil : PrunedForest [] []
  | keep : ∀ c' c rest' rest, PrunedNode c' c → PrunedForest rest' rest →
      PrunedForest (c' :: rest') (c :: rest)
  | drop : ∀ c rest' rest, PrunedForest rest' rest →
      PrunedForest rest' (c :: rest)

end

mutual

/-- `InNode t n`: `t` occurs in the subtree rooted at `n`. -/
inductive InNode : TreeNode → TreeNode → Prop where
  | refl : ∀ n, InNode n n
  | child : ∀ t p nm m cs, InForest t cs → InNode t (.folder p nm m cs)

/-- `InForest t nodes`: `t` occurs somewhere in the forest. -/
inductive InForest : TreeNode → List TreeNode → Prop where
  | head : ∀ t c rest, InNode t c → InForest t (c :: rest)
  | tail : ∀ t c rest, InForest t rest → InForest t (c :: rest)

end

/-- A concrete path environment for witnesses: resolution ignores the base and
relativisation returns the path unchanged. -/
def idPathEnv : PathEnv :=
  { resolve := fun _ n => n, relative := fun _ p => p, basename := fun p => p }

/-! ## Theorems -/

/-- C4: for a watch event whose entry name passes the hidden-path policy and
whose relative path is already a key of the allowed file set, the callback
broadcasts exactly one `file-changed` event carrying that relative path and
leaves the pending-refresh flag unchanged. -/
theorem watch_event_tracked_file (env : PathEnv) (cwd : String)
    (includeHidden : Bool) (allowedKeys : List String) (pending : Bool)
    (absRoot name : String)
    (hhidden : (!includeHidden && isHiddenPath name) = false)
    (hmem : allowedKeys.contains
      (toPosixPath (env.relative cwd (env.resolve absRoot name))) = true) :
    watchCallback env cwd includeHidden allowedKeys pending absRoot (some name) =
      (pending,
        [.fileChanged (toPosixPath (env.relative cwd (env.resolve absRoot name)))]) := by
  have hm := List.elem_iff.mp hmem
  simp [watchCallback, hhidden, hm]

/-- Witness for C4 at a concrete event. -/
theorem watch_event_tracked_file_witness :
    watchCallback idPathEnv "" false ["a.md"] false "" (some "a.md") =
      (false, [.fileChanged "a.md"]) := by
  have h := watch_event_tracked_file idPathEnv "" false ["a.md"] false "" "a.md"
    (by decide) (by decide)
  exact h.trans (by decide)

/-- C5: a watch event for a path that is not in the allowed set but has a
markdown extension sets the pending-refresh flag when it was clear, emitting
exactly one `fs-changed` broadcast; when the flag is already set a further
such event (e.g. a second new file before any rescan) emits nothing and leaves
the flag set. -/
theorem watch_event_new_markdown (env : PathEnv) (cwd : String)
    (includeHidden : Bool) (allowedKeys : List String) (absRoot n1 n2 : String)
    (h1hidden : (!includeHidden && isHiddenPath n1) = false)
    (h1mem : allowedKeys.contains
      (toPosixPath (env.relative cwd (env.resolve absRoot n1))) = false)
    (h1md : isMarkdownPath (env.resolve absRoot n1) = true)
    (h2hidden : (!includeHidden && isHiddenPath n2) = false)
    (h2mem : allowedKeys.contains
      (toPosixPath (env.relative cwd (env.resolve absRoot n2))) = false)
    (h2md : isMarkdownPath (env.resolve absRoot n2) = true) :
    watchCallback env cwd includeHidden allowedKeys false absRoot (some n1) =
      (true, [.fsChanged true]) ∧
    watchCallback env cwd includeHidden allowedKeys true absRoot (some n2) =
      (true, []) := by
  have hm1 : toPosixPath (env.relative cwd (env.resolve absRoot n1)) ∉ allowedKeys := by
    intro hmm
    simp at h1mem
    exact h1mem hmm
  have hm2 : toPosixPath (env.relative cwd (env.resolve absRoot n2)) ∉ allowedKeys := by
    intro hmm
    simp at h2mem
    exact h2mem hmm
  constructor
  · simp [watchCallback, maybeSetPendingRefresh, h1hidden, hm1, h1md]
  · simp [watchCallback, maybeSetPendingRefresh, h2hidden, hm2, h2md]

/-- Witness for C5: two consecutive new-markdown events from a clear flag. -/
theorem watch_event_new_markdown_witness :
    watchCallback idPathEnv "" false ["a.md"] false "" (some "new.md") =
      (true, [.fsChanged true]) ∧
    watchCallback idPathEnv "" false ["a.md"] true "" (some "other.md") =
      (true, []) := by
  have h := watch_event_new_markdown idPathEnv "" false ["a.md"] "" "new.md" "other.md"
    (by decide) (by decide) (by decide) (by decide) (by decide) (by decide)
  exact ⟨h.1.trans (by decide), h.2.trans (by decide)⟩

/-- C9 counterexample: a subscriber that connects while the pending-refresh
flag is clear receives only the readiness signal — its initial chunk sequence
contains no synthetic `fs-changed` event at all, contradicting the claim that
every subscriber receives an initial event conveying the flag state. -/
theorem watch_subscribe_counterexample :
    (connectClient { clients := [], pending := false }).clients =
      [[SseEvent.ready]] ∧
    ([SseEvent.ready].filter isFsChangedEvent) = [] := by
  decide

/-- C9 (amended): every subscriber receives, before any live events, the
readiness signal first and then a synthetic `fs-changed true` event exactly
when the pending-refresh flag is set at connection time; no earlier broadcast
is replayed — the initial chunk sequence depends only on the current flag,
whatever was broadcast before the connection. -/
theorem watch_subscribe_initial_events (evs : List SseEvent) (m0 : SseModel) :
    ((connectClient (evs.foldl (fun acc e => broadcastAll e acc) m0)).clients.getLast?
        = some (SseEvent.ready ::
            (if m0.pending then [SseEvent.fsChanged true] else []))) ∧
    (evs.foldl (fun acc e => broadcastAll e acc) m0).pending = m0.pending := by
  have hpend : ∀ (l : List SseEvent) (m : SseModel),
      (l.foldl (fun acc e => broadcastAll e acc) m).pending = m.pending := by
    intro l
    induction l with
    | nil => intro m; rfl
    | cons e rest ih => intro m; exact ih (broadcastAll e m)
  refine ⟨?_, hpend evs m0⟩
  simp [connectClient, connectInit, List.getLast?_concat, hpend evs m0]

/-- Membership in a JS-set append. -/
theorem mem_setAdd {l : List String} {p x : String} :
    x ∈ setAdd l p ↔ x ∈ l ∨ x = p := by
  unfold setAdd
  split
  · next h => exact ⟨Or.inl, fun h' => h'.elim id (fun hx => hx ▸ List.elem_iff.mp h)⟩
  · simp

/-- Membership after folding a JS-set append over a list. -/
theorem mem_foldl_setAdd {l : List String} :
    ∀ {acc : List String} {x : String},
      x ∈ l.foldl setAdd acc ↔ x ∈ acc ∨ x ∈ l := by
  induction l with
  | nil => simp
  | cons p rest ih =>
    intro acc x
    rw [List.foldl_cons, ih, mem_setAdd]
    constructor
    · rintro ((h | rfl) | h)
      · exact Or.inl h
      · exact Or.inr (List.mem_cons_self _ _)
      · exact Or.inr (List.mem_cons_of_mem _ h)
    · rintro (h | h)
      · exact Or.inl (Or.inl h)
      · rcases List.mem_cons.mp h with rfl | h
        · exact Or.inl (Or.inr rfl)
        · exact Or.inr h

/-- Folding a JS-set append only ever appends. -/
theorem foldl_setAdd_append (l : List String) :
    ∀ acc : List String, ∃ extra, l.foldl setAdd acc = acc ++ extra := by
  induction l with
  | nil => exact fun acc => ⟨[], by simp⟩
  | cons p rest ih =>
    intro acc
    rw [List.foldl_cons]
    by_cases hc : acc.contains p = true
    · have hp : setAdd acc p = acc := by unfold setAdd; rw [if_pos hc]
      rw [hp]
      exact ih acc
    · have hp : setAdd acc p = acc ++ [p] := by unfold setAdd; rw [if_neg hc]
      rw [hp]
      rcases ih (acc ++ [p]) with ⟨extra, hx⟩
      refine ⟨p :: extra, ?_⟩
      rw [hx, List.append_assoc]
      rfl

/-- Folding a JS-set append with only already-present elements is the
identity. -/
theorem foldl_setAdd_of_subset {l : List String} :
    ∀ {acc : List String}, (∀ p ∈ l, p ∈ acc) → l.foldl setAdd acc = acc := by
  induction l with
  | nil => intro acc _; rfl
  | cons p rest ih =>
    intro acc h
    rw [List.foldl_cons]
    have hp : setAdd acc p = acc := by
      unfold setAdd
      rw [if_pos (List.elem_iff.mpr (h p (List.mem_cons_self _ _)))]
    rw [hp]
    exact ih (fun q hq => h q (List.mem_cons_of_mem _ hq))

/-- Keys present in the allowed map built from a path list are exactly the
relative images of the list's members. -/
theorem lookup_buildAllowedFiles (env : PathEnv) (cwd : String)
    (l : List String) (k : String) :
    ((buildAllowedFiles env cwd l).lookup k).isSome ↔
      ∃ a ∈ l, toPosixPath (env.relative cwd a) = k := by
  have hgen : ∀ (l : List String) (acc : List (String × String)),
      ((l.foldl (fun allowed abs =>
          if (allowed.lookup (toPosixPath (env.relative cwd abs))).isSome then allowed
          else allowed ++ [(toPosixPath (env.relative cwd abs), abs)]) acc).lookup
            k).isSome ↔
        (acc.lookup k).isSome ∨ ∃ a ∈ l, toPosixPath (env.relative cwd a) = k := by
    intro l
    induction l with
    | nil => simp
    | cons a rest ih =>
      intro acc
      rw [List.foldl_cons, ih]
      by_cases hc : ((acc.lookup (toPosixPath (env.relative cwd a))).isSome)
      · rw [if_pos hc]
        constructor
        · rintro (h | ⟨b, hb, hbk⟩)
          · exact Or.inl h
          · exact Or.inr ⟨b, List.mem_cons_of_mem _ hb, hbk⟩
        · rintro (h | ⟨b, hb, hbk⟩)
          · exact Or.inl h
          · rcases List.mem_cons.mp hb with rfl | hbmem
            · exact Or.inl (hbk ▸ hc)
            · exact Or.inr ⟨b, hbmem, hbk⟩
      · rw [if_neg hc]
        constructor
        · rintro (h | ⟨b, hb, hbk⟩)
          · rw [List.lookup_append] at h
            rcases hacc : acc.lookup k with _ | v
            · rw [hacc, Option.none_or] at h
              by_cases hbk : (k == toPosixPath (env.relative cwd a)) = true
              · exact Or.inr ⟨a, List.mem_cons_self _ _, (eq_of_beq hbk).symm⟩
              · simp [List.lookup, hbk] at h
            · exact Or.inl rfl
          · exact Or.inr ⟨b, List.mem_cons_of_mem _ hb, hbk⟩
        · rintro (h | ⟨b, hb, hbk⟩)
          · left
            rw [List.lookup_append]
            rcases Option.isSome_iff_exists.mp h with ⟨v, hv⟩
            rw [hv]
            rfl
          · rcases List.mem_cons.mp hb with rfl | hbmem
            · left
              rw [List.lookup_append]
              subst hbk
              rcases hacc : acc.lookup (toPosixPath (env.relative cwd b)) with _ | v
              · rw [Option.none_or]
                simp [List.lookup]
              · rfl
            · exact Or.inr ⟨b, hbmem, hbk⟩
  rw [buildAllowedFiles, hgen l []]
  simp

/-- C6: a successful rescan only ever appends to the set of known absolute
paths and never drops an allowed-map key; when discovery finds nothing new,
the absolute set and the allowed map are left unchanged and pending-refresh
is cleared. -/
theorem rescan_adds_only (env : PathEnv) (cwd : String)
    (discovered : List String) (st : ServerState)
    (hinv : st.allowedFiles = buildAllowedFiles env cwd st.absoluteFiles) :
    (∃ extra, (rescan env cwd (.ok discovered) st).1.absoluteFiles =
        st.absoluteFiles ++ extra) ∧
    (∀ k, ((st.allowedFiles.lookup k).isSome) →
        (((rescan env cwd (.ok discovered) st).1.allowedFiles.lookup k).isSome)) ∧
    ((∀ p ∈ discovered, p ∈ st.absoluteFiles) →
      (rescan env cwd (.ok discovered) st).1.absoluteFiles = st.absoluteFiles ∧
      (rescan env cwd (.ok discovered) st).1.allowedFiles = st.allowedFiles ∧
      (rescan env cwd (.ok discovered) st).1.pendingRefresh = false) := by
  refine ⟨foldl_setAdd_append discovered st.absoluteFiles, ?_, ?_⟩
  · intro k hk
    rw [hinv] at hk
    rw [show (rescan env cwd (.ok discovered) st).1.allowedFiles =
        buildAllowedFiles env cwd (discovered.foldl setAdd st.absoluteFiles) from rfl]
    rw [lookup_buildAllowedFiles] at hk ⊢
    rcases hk with ⟨a, ha, hak⟩
    exact ⟨a, mem_foldl_setAdd.mpr (Or.inl ha), hak⟩
  · intro hsub
    have habs : (rescan env cwd (.ok discovered) st).1.absoluteFiles =
        st.absoluteFiles := foldl_setAdd_of_subset hsub
    refine ⟨habs, ?_, rfl⟩
    rw [show (rescan env cwd (.ok discovered) st).1.allowedFiles =
        buildAllowedFiles env cwd (discovered.foldl setAdd st.absoluteFiles) from rfl]
    rw [show discovered.foldl setAdd st.absoluteFiles = st.absoluteFiles from
      foldl_setAdd_of_subset hsub]
    exact hinv.symm

/-- Witness for C6: rescan rediscovering an already-known file. -/
theorem rescan_adds_only_witness :
    (rescan idPathEnv "" (.ok ["/w/a.md"])
        { absoluteFiles := ["/w/a.md"],
          allowedFiles := buildAllowedFiles idPathEnv "" ["/w/a.md"],
          singleFile := true, pendingRefresh := true }).1.absoluteFiles =
      ["/w/a.md"] ∧
    (rescan idPathEnv "" (.ok ["/w/a.md"])
        { absoluteFiles := ["/w/a.md"],
          allowedFiles := buildAllowedFiles idPathEnv "" ["/w/a.md"],
          singleFile := true, pendingRefresh := true }).1.pendingRefresh = false := by
  have h := rescan_adds_only idPathEnv "" ["/w/a.md"]
    { absoluteFiles := ["/w/a.md"],
      allowedFiles := buildAllowedFiles idPathEnv "" ["/w/a.md"],
      singleFile := true, pendingRefresh := true } rfl
  have h3 := h.2.2 (by decide)
  exact ⟨h3.1, h3.2.2⟩

/-- A nonempty explicit `path` query parameter resolves to itself. -/
theorem resolveRequestPath_some (st : ServerState) {rel : String}
    (h : rel ≠ "") : resolveRequestPath st (some rel) = some rel := by
  unfold resolveRequestPath
  simp [h]

/-- C2: a file-content request (read or write) whose requested relative path
is not a key of the allowed file map gets the "File not allowed" error and
performs no filesystem access; moreover the write handler rejects, without
writing, any parsed body whose `content` field is missing or not a string. -/
theorem api_file_access_control (env : PathEnv) (st : ServerState)
    (rel : String) (fsExists : String → Bool) (fsRead : String → Option String)
    (body : Except Unit JsonVal) (writeOk : Bool) (hrel : rel ≠ "") :
    (st.allowedFiles.lookup rel = none →
      apiFileGet env st (some rel) fsExists fsRead =
        (.apiError 403 "File not allowed", []) ∧
      apiFilePut st (some rel) body writeOk =
        (.apiError 403 "File not allowed", [])) ∧
    (∀ abs j c, st.allowedFiles.lookup rel = some abs → body = .ok j →
      contentField j = .ok c → (∀ s, c ≠ some (.str s)) →
      apiFilePut st (some rel) body writeOk =
        (.apiError 400 "Invalid content", [])) := by
  constructor
  · intro hnone
    constructor
    · simp only [apiFileGet, resolveRequestPath_some st hrel, hnone]
    · simp only [apiFilePut, resolveRequestPath_some st hrel, hnone]
  · intro abs j c hsome hbody hcontent hnostr
    simp only [apiFilePut, resolveRequestPath_some st hrel, hsome, hbody]
    rcases c with _ | v
    · simp only [hcontent]
    · rcases v with s | n | b | _ | xs | fields
      · exact absurd rfl (hnostr s)
      all_goals simp only [hcontent]

/-- Witness for C2: a disallowed path on both handlers, and a numeric
`content` on an allowed path. -/
theorem api_file_access_control_witness :
    apiFileGet idPathEnv
        { absoluteFiles := ["/w/a.md"], allowedFiles := [("a.md", "/w/a.md")],
          singleFile := true, pendingRefresh := false }
        (some "nope") (fun _ => true) (fun _ => some "text") =
      (.apiError 403 "File not allowed", []) ∧
    apiFilePut
        { absoluteFiles := ["/w/a.md"], allowedFiles := [("a.md", "/w/a.md")],
          singleFile := true, pendingRefresh := false }
        (some "a.md") (.ok (.obj [("content", .num 3)])) true =
      (.apiError 400 "Invalid content", []) := by
  constructor
  · exact ((api_file_access_control idPathEnv
      { absoluteFiles := ["/w/a.md"], allowedFiles := [("a.md", "/w/a.md")],
        singleFile := true, pendingRefresh := false }
      "nope" (fun _ => true) (fun _ => some "text")
      (.ok (.obj [("content", .num 3)])) true (by decide)).1 (by decide)).1
  · exact (api_file_access_control idPathEnv
      { absoluteFiles := ["/w/a.md"], allowedFiles := [("a.md", "/w/a.md")],
        singleFile := true, pendingRefresh := false }
      "a.md" (fun _ => true) (fun _ => some "text")
      (.ok (.obj [("content", .num 3)])) true (by decide)).2
      "/w/a.md" (.obj [("content", .num 3)]) (some (.num 3))
      (by decide) rfl rfl (fun s h => by simp at h)

mutual

/-- Scanning a directory is folding its add-sequence into the set. -/
theorem scanDirectory_eq : ∀ (dir : String) (r h : Bool)
    (entries : List FsEntry) (out : List String),
    scanDirectory dir r h entries out =
      (scanDirAdds dir r h entries).foldl setAdd out
  | _, _, _, [], _ => rfl
  | dir, r, h, e :: rest, out => by
    simp only [scanDirectory, scanDirAdds, List.foldl_append]
    rw [scanEntry_eq dir r h e out, scanDirectory_eq dir r h rest]

/-- Scanning one entry is folding its add-sequence into the set. -/
theorem scanEntry_eq : ∀ (dir : String) (r h : Bool) (e : FsEntry)
    (out : List String),
    scanEntry dir r h e out = (scanEntryAdds dir r h e).foldl setAdd out
  | dir, r, h, .dir name children, out => by
    simp only [scanEntry, scanEntryAdds]
    by_cases h1 : (!h && startsWithDot name) = true
    · simp [h1]
    · by_cases h2 : (!r) = true
      · simp [h1, h2]
      · simp only [h1, h2, if_false, Bool.false_eq_true]
        exact scanDirectory_eq (resolveChild dir name) r h children out
  | dir, r, h, .file name, out => by
    simp only [scanEntry, scanEntryAdds]
    by_cases h1 : (!h && startsWithDot name) = true
    · simp [h1]
    · by_cases h2 : isMarkdownPath name = true
      · simp [h1, h2]
      · simp [h1, h2]
  | dir, r, h, .symlink name, out => by
    simp only [scanEntry, scanEntryAdds]
    by_cases h1 : (!h && startsWithDot name) = true
    · simp [h1]
    · by_cases h2 : isMarkdownPath name = true
      · simp [h1, h2]
      · simp [h1, h2]

end

/-- A successful discovery loop run accumulates exactly the raw add-sequence
into the insertion-ordered set. -/
theorem discoverLoop_eq (r h strict : Bool) :
    ∀ (inputs : List DiscoverInput) (d out : List String),
      discoverLoop r h strict d inputs = .ok out →
      out = (discoverAdds r h inputs).foldl setAdd d := by
  intro inputs
  induction inputs with
  | nil =>
    intro d out hok
    simp only [discoverLoop] at hok
    injection hok with hok
    exact hok.symm
  | cons i rest ih =>
    intro d out hok
    rcases i with ms | abs | ⟨input, abs, entries⟩ | abs | abs
    · simp only [discoverLoop, discoverStep] at hok
      rw [discoverAdds, List.foldl_append]
      exact ih _ out hok
    · simp only [discoverLoop, discoverStep] at hok
      by_cases hs : strict = true
      · rw [if_pos hs] at hok
        simp at hok
      · rw [if_neg hs] at hok
        rw [discoverAdds, List.nil_append]
        exact ih d out hok
    · simp only [discoverLoop, discoverStep] at hok
      by_cases h1 : (!h && isHiddenPath input) = true
      · rw [if_pos h1] at hok
        rw [discoverAdds, if_pos h1, List.nil_append]
        exact ih d out hok
      · rw [if_neg h1] at hok
        rw [discoverAdds, if_neg h1, List.foldl_append,
          ← scanDirectory_eq abs r h entries d]
        exact ih _ out hok
    · simp only [discoverLoop, discoverStep] at hok
      by_cases h1 : isMarkdownPath abs = true
      · rw [if_pos h1] at hok
        rw [discoverAdds, if_pos h1, List.foldl_append]
        exact ih _ out hok
      · rw [if_neg h1] at hok
        rw [discoverAdds, if_neg h1, List.nil_append]
        exact ih d out hok
    · simp only [discoverLoop, discoverStep] at hok
      rw [discoverAdds, List.nil_append]
      exact ih d out hok

/-- The `uniqueInOrder` loop with matching `seen`/`out` contents is a set
fold. -/
theorem uniqueInOrderGo_eq :
    ∀ (l seen out : List String), (∀ p : String, p ∈ seen ↔ p ∈ out) →
      uniqueInOrderGo l seen out = l.foldl setAdd out := by
  intro l
  induction l with
  | nil => intro seen out _; rfl
  | cons p rest ih =>
    intro seen out hinv
    by_cases hc : seen.contains p = true
    · have hpo : p ∈ out := (hinv p).mp (List.elem_iff.mp hc)
      simp only [uniqueInOrderGo, hc, if_true, List.foldl_cons]
      have hadd : setAdd out p = out := by
        unfold setAdd
        rw [if_pos (List.elem_iff.mpr hpo)]
      rw [hadd]
      exact ih seen out hinv
    · have hpo : p ∉ out := fun hm =>
        hc (List.elem_iff.mpr ((hinv p).mpr hm))
      simp only [uniqueInOrderGo, hc, if_false, Bool.false_eq_true, List.foldl_cons]
      have hadd : setAdd out p = out ++ [p] := by
        unfold setAdd
        rw [if_neg (fun hcc => hpo (List.elem_iff.mp hcc))]
      rw [hadd]
      refine ih (p :: seen) (out ++ [p]) ?_
      intro q
      rw [List.mem_cons, List.mem_append, List.mem_singleton, hinv q, Or.comm]

/-- `uniqueInOrder` as a set fold. -/
theorem uniqueInOrder_eq_foldl (l : List String) :
    uniqueInOrder l = l.foldl setAdd [] :=
  uniqueInOrderGo_eq l [] [] (by simp)

/-- Set folds preserve freedom from duplicates. -/
theorem foldl_setAdd_nodup {l : List String} :
    ∀ {acc : List String}, acc.Nodup → (l.foldl setAdd acc).Nodup := by
  induction l with
  | nil => exact fun h => h
  | cons p rest ih =>
    intro acc hacc
    rw [List.foldl_cons]
    refine ih ?_
    unfold setAdd
    split
    · exact hacc
    · next hc =>
      rw [List.nodup_append]
      refine ⟨hacc, List.nodup_singleton p, ?_⟩
      intro a ha hb
      exact hc (List.elem_iff.mpr ((List.mem_singleton.mp hb) ▸ ha))

/-- The deduplicated discovery output has no duplicates. -/
theorem uniqueInOrder_nodup (l : List String) : (uniqueInOrder l).Nodup := by
  rw [uniqueInOrder_eq_foldl]
  exact foldl_setAdd_nodup List.nodup_nil

/-- Membership survives `uniqueInOrder`. -/
theorem mem_uniqueInOrder {l : List String} {x : String} :
    x ∈ uniqueInOrder l ↔ x ∈ l := by
  rw [uniqueInOrder_eq_foldl, mem_foldl_setAdd]
  simp

/-- Folding a set add over fresh duplicate-free elements appends them all. -/
theorem foldl_setAdd_of_nodup :
    ∀ (l acc : List String), (acc ++ l).Nodup → l.foldl setAdd acc = acc ++ l := by
  intro l
  induction l with
  | nil => simp
  | cons p rest ih =>
    intro acc hnd
    have hp : p ∉ acc := by
      intro hm
      rcases (List.nodup_append.mp hnd) with ⟨_, _, hdisj⟩
      exact hdisj hm (List.mem_cons_self _ _)
    rw [List.foldl_cons]
    have hadd : setAdd acc p = acc ++ [p] := by
      unfold setAdd
      rw [if_neg (fun hcc => hp (List.elem_iff.mp hcc))]
    rw [hadd]
    have hnd2 : ((acc ++ [p]) ++ rest).Nodup := by
      rw [List.append_assoc]
      exact hnd
    rw [ih (acc ++ [p]) hnd2, List.append_assoc]
    rfl

/-- `uniqueInOrder` is the identity on duplicate-free lists. -/
theorem uniqueInOrder_eq_self {l : List String} (h : l.Nodup) :
    uniqueInOrder l = l := by
  rw [uniqueInOrder_eq_foldl]
  have := foldl_setAdd_of_nodup l [] (by simpa using h)
  simpa using this

/-- `uniqueInOrder` lists paths in strictly increasing first-occurrence
order. -/
theorem uniqueInOrder_pairwise (l : List String) :
    (uniqueInOrder l).Pairwise
      (fun p q => l.indexOf p < l.indexOf q) := by
  induction l using List.reverseRecOn with
  | nil =>
    rw [uniqueInOrder_eq_foldl]
    exact List.Pairwise.nil
  | append_singleton l x ih =>
    have hconcat : uniqueInOrder (l ++ [x]) = setAdd (uniqueInOrder l) x := by
      rw [uniqueInOrder_eq_foldl, List.foldl_append, ← uniqueInOrder_eq_foldl]
      rfl
    rw [hconcat]
    have hlift : (uniqueInOrder l).Pairwise
        (fun p q => (l ++ [x]).indexOf p < (l ++ [x]).indexOf q) := by
      refine List.Pairwise.imp_of_mem ?_ ih
      intro p q hp hq hrel
      have hpl : p ∈ l := mem_uniqueInOrder.mp hp
      have hql : q ∈ l := mem_uniqueInOrder.mp hq
      rw [List.indexOf_append_of_mem hpl, List.indexOf_append_of_mem hql]
      exact hrel
    unfold setAdd
    split
    · exact hlift
    · next hc =>
      have hxl : x ∉ l := fun hm =>
        hc (List.elem_iff.mpr (mem_uniqueInOrder.mpr hm))
      rw [List.pairwise_append]
      refine ⟨hlift, List.pairwise_singleton _ _, ?_⟩
      intro p hp q hq
      rw [List.mem_singleton.mp hq]
      have hpl : p ∈ l := mem_uniqueInOrder.mp hp
      rw [List.indexOf_append_of_mem hpl, List.indexOf_append_of_not_mem hxl]
      calc l.indexOf p < l.length := List.indexOf_lt_length.mpr hpl
        _ ≤ l.length + [x].indexOf x := Nat.le_add_right _ _

/-- The git-ignore filter never reorders and never adds: its output is a
sublist of its input. -/
theorem filterGitIgnored_sublist (env : GitEnv) (l : List String) :
    (filterGitIgnored env l).Sublist l := by
  unfold filterGitIgnored
  split
  · exact List.Sublist.refl l
  · split
    · exact List.Sublist.refl l
    · split
      · exact List.Sublist.refl l
      · split
        · exact List.Sublist.refl l
        · split
          · exact List.Sublist.refl l
          · split
            · exact List.Sublist.refl l
            · exact List.filter_sublist l


/-- C1: a successful `discoverMarkdownFiles` run returns a list with no
duplicate absolute paths — however many input tokens resolve to the same
path — and the surviving paths appear in first-seen order: the result is a
sublist of the deduplicated raw candidate sequence and is ordered by first
occurrence in that sequence. -/
theorem discover_output_nodup_first_seen (env : GitEnv)
    (inputs : List DiscoverInput) (opts : DiscoverOptions) (res : List String)
    (h : discoverMarkdownFiles env inputs opts = .ok res) :
    res.Nodup ∧
    res.Sublist (uniqueInOrder (discoverAdds opts.recursive opts.includeHidden inputs)) ∧
    res.Pairwise (fun p q =>
      (discoverAdds opts.recursive opts.includeHidden inputs).indexOf p <
        (discoverAdds opts.recursive opts.includeHidden inputs).indexOf q) := by
  unfold discoverMarkdownFiles at h
  rcases hloop : discoverLoop opts.recursive opts.includeHidden
      (!(opts.strict == some false)) [] inputs with e | discovered
  · rw [hloop] at h
    simp at h
  · rw [hloop] at h
    simp only [Except.ok.injEq] at h
    have hdisc : discovered =
        uniqueInOrder (discoverAdds opts.recursive opts.includeHidden inputs) := by
      rw [uniqueInOrder_eq_foldl]
      exact discoverLoop_eq _ _ _ inputs [] discovered hloop
    have hnodupd : discovered.Nodup := by
      rw [hdisc]
      exact uniqueInOrder_nodup _
    have hsub : (filterGitIgnored env discovered).Sublist discovered :=
      filterGitIgnored_sublist env discovered
    have hnodupf : (filterGitIgnored env discovered).Nodup := hsub.nodup hnodupd
    have hres : res = filterGitIgnored env discovered := by
      rw [← h, uniqueInOrder_eq_self hnodupf]
    rw [hres]
    have hsub2 : (filterGitIgnored env discovered).Sublist
        (uniqueInOrder (discoverAdds opts.recursive opts.includeHidden inputs)) := by
      rw [← hdisc]
      exact hsub
    exact ⟨hnodupf, hsub2,
      List.Pairwise.sublist hsub2 (uniqueInOrder_pairwise _)⟩

/-- Witness for C1: two tokens (a glob and a literal) resolving to the same
path produce a single entry, in first-discovery order. -/
theorem discover_output_nodup_first_seen_witness :
    discoverMarkdownFiles
        { gitAvailable := false, revParseOk := false, repoRoot := "",
          relTo := fun r => r, checkIgnoreExit := 0, ignoredRel := [] }
        [.glob ["/w/a.md", "/w/b.txt", "/w/a.md"], .fileInput "/w/a.md",
         .dirInput "docs" "/w/docs"
           [.file "x.md", .file ".h.md", .dir "sub" [.file "c.md"]]]
        { recursive := true, includeHidden := false, strict := none } =
      .ok ["/w/a.md", "/w/docs/x.md", "/w/docs/sub/c.md"] ∧
    (["/w/a.md", "/w/docs/x.md", "/w/docs/sub/c.md"] : List String).Nodup := by
  constructor
  · rfl
  · exact (discover_output_nodup_first_seen
      { gitAvailable := false, revParseOk := false, repoRoot := "",
        relTo := fun r => r, checkIgnoreExit := 0, ignoredRel := [] }
      [.glob ["/w/a.md", "/w/b.txt", "/w/a.md"], .fileInput "/w/a.md",
       .dirInput "docs" "/w/docs"
         [.file "x.md", .file ".h.md", .dir "sub" [.file "c.md"]]]
      { recursive := true, includeHidden := false, strict := none }
      ["/w/a.md", "/w/docs/x.md", "/w/docs/sub/c.md"] rfl).1

/-- Comparison is antisymmetric under argument swap. -/
theorem charsCmp_swap : ∀ a b : List Char, charsCmp b a = -(charsCmp a b)
  | [], [] => rfl
  | [], _ :: _ => rfl
  | _ :: _, [] => rfl
  | a :: as, b :: bs => by
    simp only [charsCmp]
    rcases Nat.lt_trichotomy a.toNat b.toNat with h | h | h
    · rw [if_neg (Nat.lt_asymm h), if_pos h, if_pos h]
      decide
    · have h1 : ¬ a.toNat < b.toNat := by omega
      have h2 : ¬ b.toNat < a.toNat := by omega
      rw [if_neg h2, if_neg h1, if_neg h1, if_neg h2]
      exact charsCmp_swap as bs
    · rw [if_pos h, if_neg (Nat.lt_asymm h), if_pos h]

/-- Comparison is transitive on the non-positive side. -/
theorem charsCmp_le_trans : ∀ a b c : List Char,
    charsCmp a b ≤ 0 → charsCmp b c ≤ 0 → charsCmp a c ≤ 0
  | [], _, c, _, _ => by cases c <;> simp [charsCmp]
  | _ :: _, [], _, h1, _ => by simp [charsCmp] at h1
  | _ :: _, _ :: _, [], _, h2 => by simp [charsCmp] at h2
  | x :: xs, y :: ys, z :: zs, h1, h2 => by
    simp only [charsCmp] at h1 h2 ⊢
    rcases Nat.lt_trichotomy x.toNat y.toNat with hxy | hxy | hxy
    · rcases Nat.lt_trichotomy y.toNat z.toNat with hyz | hyz | hyz
      · rw [if_pos (Nat.lt_trans hxy hyz)]
        decide
      · rw [if_pos (hyz ▸ hxy)]
        decide
      · rw [if_neg (Nat.lt_asymm hyz), if_pos hyz] at h2
        exact absurd h2 (by decide)
    · have hx1 : ¬ x.toNat < y.toNat := by omega
      have hx2 : ¬ y.toNat < x.toNat := by omega
      rw [if_neg hx1, if_neg hx2] at h1
      rcases Nat.lt_trichotomy y.toNat z.toNat with hyz | hyz | hyz
      · rw [if_pos (hxy ▸ hyz)]
        decide
      · have hz1 : ¬ y.toNat < z.toNat := by omega
        have hz2 : ¬ z.toNat < y.toNat := by omega
        rw [if_neg hz1, if_neg hz2] at h2
        have hxz1 : ¬ x.toNat < z.toNat := by omega
        have hxz2 : ¬ z.toNat < x.toNat := by omega
        rw [if_neg hxz1, if_neg hxz2]
        exact charsCmp_le_trans xs ys zs h1 h2
      · rw [if_neg (Nat.lt_asymm hyz), if_pos hyz] at h2
        exact absurd h2 (by decide)
    · rw [if_neg (Nat.lt_asymm hxy), if_pos hxy] at h1
      exact absurd h1 (by decide)

/-- `compareStrings` is antisymmetric under argument swap. -/
theorem compareStrings_swap (a b : String) :
    compareStrings b a = -(compareStrings a b) :=
  charsCmp_swap _ _

/-- The selected comparator relation is transitive. -/
theorem sortLe_trans (so : SortOrder) (a b c : TreeNode) :
    sortLe so a b = true → sortLe so b c = true → sortLe so a c = true := by
  cases so <;>
    simp only [sortLe, sortCmp, decide_eq_true_eq] <;>
    intro h1 h2
  · exact charsCmp_le_trans _ _ _ h1 h2
  · have h1' : compareStrings b.name a.name ≤ 0 := by
      rw [compareStrings_swap]
      omega
    have h2' : compareStrings c.name b.name ≤ 0 := by
      rw [compareStrings_swap]
      omega
    have hca : compareStrings c.name a.name ≤ 0 := charsCmp_le_trans _ _ _ h2' h1'
    rw [compareStrings_swap] at hca
    omega
  · omega
  · omega

/-- The selected comparator relation is total. -/
theorem sortLe_total (so : SortOrder) (a b : TreeNode) :
    (sortLe so a b || sortLe so b a) = true := by
  cases so <;>
    simp only [sortLe, sortCmp, Bool.or_eq_true, decide_eq_true_eq]
  · rcases Int.le_or_lt (compareStrings a.name b.name) 0 with h | h
    · exact Or.inl h
    · right
      rw [compareStrings_swap]
      omega
  · rcases Int.le_or_lt (compareStrings a.name b.name) 0 with h | h
    · right
      rw [compareStrings_swap]
      omega
    · left
      omega
  · omega
  · omega

/-- Each sorted sibling block is ordered by the comparator. -/
theorem pairwise_mergeSort_sortLe (so : SortOrder) (l : List TreeNode) :
    (l.mergeSort (sortLe so)).Pairwise (fun a b => sortLe so a b = true) :=
  List.sorted_mergeSort (sortLe_trans so) (sortLe_total so) l

/-- A `TreeNode` is a file exactly when it is not a folder. -/
theorem isFile_eq_not_isFolder (n : TreeNode) : n.isFile = !n.isFolder := by
  cases n <;> rfl

/-- `sortChildren` permutes the sibling list: membership is unchanged. -/
theorem mem_sortChildren {n : TreeNode} {l : List TreeNode} {so : SortOrder} :
    n ∈ sortChildren l so ↔ n ∈ l := by
  unfold sortChildren
  rw [List.mem_append, List.mem_mergeSort, List.mem_mergeSort]
  constructor
  · rintro (h | h) <;> exact (List.mem_filter.mp h).1
  · intro h
    cases hn : n with
    | folder p nm m cs =>
      exact Or.inl (List.mem_filter.mpr ⟨hn ▸ h, by rw [TreeNode.isFolder]⟩)
    | file p nm m s e =>
      exact Or.inr (List.mem_filter.mpr ⟨hn ▸ h, by rw [TreeNode.isFile]⟩)

/-- `sortChildren` output is folders-then-files, each block sorted. -/
theorem sortChildren_ordered (so : SortOrder) (l : List TreeNode) :
    SiblingsOrdered so (sortChildren l so) :=
  ⟨(l.filter TreeNode.isFolder).mergeSort (sortLe so),
   (l.filter TreeNode.isFile).mergeSort (sortLe so), rfl,
   fun _n hn => (List.mem_filter.mp (List.mem_mergeSort.mp hn)).2,
   fun _n hn => (List.mem_filter.mp (List.mem_mergeSort.mp hn)).2,
   pairwise_mergeSort_sortLe so _, pairwise_mergeSort_sortLe so _⟩

/-- `SortedForest` is elementwise `SortedNode`. -/
theorem sortedForest_iff (so : SortOrder) (l : List TreeNode) :
    SortedForest so l ↔ ∀ c ∈ l, SortedNode so c := by
  induction l with
  | nil => exact ⟨fun _ c hc => absurd hc (List.not_mem_nil c), fun _ => .nil⟩
  | cons c rest ih =>
    constructor
    · intro h d hd
      cases h with
      | cons _ _ hc hrest =>
        rcases List.mem_cons.mp hd with rfl | hdm
        · exact hc
        · exact ih.mp hrest d hdm
    · intro h
      exact .cons _ _ (h c (List.mem_cons_self _ _))
        (ih.mpr (fun d hd => h d (List.mem_cons_of_mem _ hd)))

mutual

/-- Recursive sorting makes every subtree sorted. -/
theorem sortNode_sorted (so : SortOrder) : ∀ t, SortedNode so (sortNode so t)
  | .file p n m s e => .file p n m s e
  | .folder p n m cs => by
    have hkids := sortKids_sorted so cs
    exact SortedNode.folder _ _ _ _ (sortChildren_ordered so _)
      ((sortedForest_iff so _).mpr (fun c hc =>
        (sortedForest_iff so _).mp hkids c (mem_sortChildren.mp hc)))

/-- Recursive sorting makes every tree of a forest sorted. -/
theorem sortKids_sorted (so : SortOrder) : ∀ cs, SortedForest so (sortKids so cs)
  | [] => .nil
  | c :: rest => .cons _ _ (sortNode_sorted so c) (sortKids_sorted so rest)

end

/-- C8: for every file list and every sort order, every sibling group of the
built tree — the top level and every folder's children, recursively — has all
folder nodes before all file nodes, each block ordered by the comparator the
sort order selects. -/
theorem buildFileTree_sorted (files : List ApiFile) (so : SortOrder) :
    SiblingsOrdered so (buildFileTree files so) ∧
    SortedForest so (buildFileTree files so) := by
  unfold buildFileTree sortForest
  refine ⟨sortChildren_ordered so _, ?_⟩
  exact (sortedForest_iff so _).mpr (fun c hc =>
    (sortedForest_iff so _).mp (sortKids_sorted so _) c (mem_sortChildren.mp hc))

/-- Folding `max` from an arbitrary seed. -/
theorem foldl_max_acc : ∀ (l : List Nat) (i : Nat),
    l.foldl max i = max i (maxMtime l)
  | [], i => by simp [maxMtime]
  | x :: l, i => by
    simp only [maxMtime, List.foldl_cons]
    rw [foldl_max_acc l (max i x), foldl_max_acc l (max 0 x)]
    simp only [maxMtime]
    omega

/-- `maxMtime` unfolds over cons. -/
theorem maxMtime_cons (x : Nat) (l : List Nat) :
    maxMtime (x :: l) = max x (maxMtime l) := by
  simp only [maxMtime, List.foldl_cons]
  rw [foldl_max_acc]
  simp only [maxMtime]
  omega

/-- `maxMtime` distributes over append. -/
theorem maxMtime_append (l1 l2 : List Nat) :
    maxMtime (l1 ++ l2) = max (maxMtime l1) (maxMtime l2) := by
  induction l1 with
  | nil =>
    simp only [List.nil_append]
    have : maxMtime ([] : List Nat) = 0 := rfl
    rw [this]
    omega
  | cons x l ih =>
    rw [List.cons_append, maxMtime_cons, maxMtime_cons, ih]
    omega

/-- Every member is bounded by `maxMtime`. -/
theorem le_maxMtime_of_mem {x : Nat} : ∀ {l : List Nat}, x ∈ l → x ≤ maxMtime l := by
  intro l
  induction l with
  | nil => intro h; cases h
  | cons y l ih =>
    intro h
    rw [maxMtime_cons]
    rcases List.mem_cons.mp h with rfl | hm
    · omega
    · have := ih hm
      omega

/-- `maxMtime` is zero or attained. -/
theorem maxMtime_mem_or_zero : ∀ l : List Nat, maxMtime l = 0 ∨ maxMtime l ∈ l := by
  intro l
  induction l with
  | nil => exact Or.inl rfl
  | cons x l ih =>
    rw [maxMtime_cons]
    rcases Nat.le_total x (maxMtime l) with hle | hge
    · rw [Nat.max_eq_right hle]
      rcases ih with h0 | hm
      · rcases Nat.eq_zero_of_le_zero (h0 ▸ hle) with rfl
        exact Or.inl h0
      · exact Or.inr (List.mem_cons_of_mem _ hm)
    · rw [Nat.max_eq_left hge]
      exact Or.inr (List.mem_cons_self _ _)

/-- Lists with the same members have the same maximum. -/
theorem maxMtime_congr {l1 l2 : List Nat} (h : ∀ x, x ∈ l1 ↔ x ∈ l2) :
    maxMtime l1 = maxMtime l2 := by
  apply Nat.le_antisymm
  · rcases maxMtime_mem_or_zero l1 with h0 | hm
    · rw [h0]; exact Nat.zero_le _
    · exact le_maxMtime_of_mem ((h _).mp hm)
  · rcases maxMtime_mem_or_zero l2 with h0 | hm
    · rw [h0]; exact Nat.zero_le _
    · exact le_maxMtime_of_mem ((h _).mpr hm)

/-- File-descendant mtimes of a forest, elementwise. -/
theorem mem_fileDescMtimesF : ∀ {l : List TreeNode} {x : Nat},
    x ∈ fileDescMtimesF l ↔ ∃ c ∈ l, x ∈ fileDescMtimes c := by
  intro l
  induction l with
  | nil =>
    intro x
    constructor
    · intro h; cases h
    · rintro ⟨c, hc, _⟩; cases hc
  | cons c rest ih =>
    intro x
    rw [fileDescMtimesF, List.mem_append]
    constructor
    · rintro (h | h)
      · exact ⟨c, List.mem_cons_self _ _, h⟩
      · rcases ih.mp h with ⟨d, hd, hx⟩
        exact ⟨d, List.mem_cons_of_mem _ hd, hx⟩
    · rintro ⟨d, hd, hx⟩
      rcases List.mem_cons.mp hd with rfl | hdm
      · exact Or.inl hx
      · exact Or.inr (ih.mpr ⟨d, hdm, hx⟩)

/-- Forests with the same trees have the same file-descendant mtimes. -/
theorem fdmF_mem_congr {l1 l2 : List TreeNode}
    (h : ∀ c, c ∈ l1 ↔ c ∈ l2) (x : Nat) :
    x ∈ fileDescMtimesF l1 ↔ x ∈ fileDescMtimesF l2 := by
  rw [mem_fileDescMtimesF, mem_fileDescMtimesF]
  constructor
  · rintro ⟨c, hc, hx⟩; exact ⟨c, (h c).mp hc, hx⟩
  · rintro ⟨c, hc, hx⟩; exact ⟨c, (h c).mpr hc, hx⟩

mutual

/-- Recursive sorting does not change a subtree's file-descendant mtimes. -/
theorem fdm_sortNode (so : SortOrder) : ∀ (t : TreeNode) (x : Nat),
    x ∈ fileDescMtimes (sortNode so t) ↔ x ∈ fileDescMtimes t
  | .file p n m s e, x => Iff.rfl
  | .folder p n m cs, x => by
    show x ∈ fileDescMtimesF (sortChildren (sortKids so cs) so) ↔
      x ∈ fileDescMtimesF cs
    rw [fdmF_mem_congr (fun c => (mem_sortChildren (n := c))) x]
    exact fdm_sortKids so cs x

/-- Recursive sorting does not change a forest's file-descendant mtimes. -/
theorem fdm_sortKids (so : SortOrder) : ∀ (cs : List TreeNode) (x : Nat),
    x ∈ fileDescMtimesF (sortKids so cs) ↔ x ∈ fileDescMtimesF cs
  | [], _ => Iff.rfl
  | c :: rest, x => by
    show x ∈ fileDescMtimes (sortNode so c) ++ fileDescMtimesF (sortKids so rest) ↔ _
    rw [List.mem_append, fdm_sortNode so c x, fdm_sortKids so rest x,
      fileDescMtimesF, List.mem_append]

end

/-- `MtimeOkF` is elementwise `MtimeOk`. -/
theorem mtimeOkF_iff (l : List TreeNode) :
    MtimeOkF l ↔ ∀ c ∈ l, MtimeOk c := by
  induction l with
  | nil => exact ⟨fun _ c hc => absurd hc (List.not_mem_nil c), fun _ => .nil⟩
  | cons c rest ih =>
    constructor
    · intro h d hd
      cases h with
      | cons _ _ hc hrest =>
        rcases List.mem_cons.mp hd with rfl | hdm
        · exact hc
        · exact ih.mp hrest d hdm
    · intro h
      exact .cons _ _ (h c (List.mem_cons_self _ _))
        (ih.mpr (fun d hd => h d (List.mem_cons_of_mem _ hd)))

mutual

/-- Recursive sorting preserves the folder-mtime invariant. -/
theorem sortNode_mtimeOk (so : SortOrder) : ∀ t, MtimeOk t → MtimeOk (sortNode so t)
  | .file p n m s e, _ => .file p n m s e
  | .folder p n m cs, h => by
    cases h with
    | folder _ _ _ _ hF hm =>
      refine MtimeOk.folder _ _ _ _ ?_ ?_
      · rw [mtimeOkF_iff]
        intro c hc
        exact (mtimeOkF_iff _).mp (sortKids_mtimeOk so cs hF) c
          (mem_sortChildren.mp hc)
      · rw [hm]
        refine maxMtime_congr ?_
        intro x
        exact ((fdm_sortKids so cs x).symm).trans
          ((fdmF_mem_congr (fun c => (mem_sortChildren (n := c))) x).symm)

/-- Recursive sorting preserves the invariant across a forest. -/
theorem sortKids_mtimeOk (so : SortOrder) :
    ∀ cs, MtimeOkF cs → MtimeOkF (sortKids so cs)
  | [], _ => .nil
  | c :: rest, h => by
    cases h with
    | cons _ _ hc hrest =>
      exact .cons _ _ (sortNode_mtimeOk so c hc) (sortKids_mtimeOk so rest hrest)

end

/-- A node satisfying the invariant exposes its descendant maximum. -/
theorem mtime_of_ok : ∀ {c : TreeNode}, MtimeOk c →
    c.mtimeMs = maxMtime (fileDescMtimes c) := by
  intro c h
  cases h with
  | file p n m s e =>
    show m = maxMtime [m]
    rw [maxMtime_cons]
    have : maxMtime ([] : List Nat) = 0 := rfl
    rw [this]
    omega
  | folder p n m cs _ hm => exact hm

/-- The running maximum the recompute loop takes over children equals the
maximum over all their file descendants, once every child satisfies the
invariant. -/
theorem foldl_children_mtimes : ∀ (l : List TreeNode), MtimeOkF l →
    l.foldl (fun acc c => max acc c.mtimeMs) 0 = maxMtime (fileDescMtimesF l) := by
  have hfold : ∀ (l : List TreeNode) (i : Nat),
      l.foldl (fun acc c => max acc c.mtimeMs) i =
        max i (maxMtime (l.map TreeNode.mtimeMs)) := by
    intro l
    induction l with
    | nil => intro i; simp [maxMtime]
    | cons c rest ih =>
      intro i
      rw [List.foldl_cons, ih (max i c.mtimeMs), List.map_cons, maxMtime_cons]
      omega
  intro l hok
  rw [hfold l 0]
  have hmap : maxMtime (l.map TreeNode.mtimeMs) = maxMtime (fileDescMtimesF l) := by
    induction l with
    | nil => rfl
    | cons c rest ih =>
      cases hok with
      | cons _ _ hc hrest =>
        rw [List.map_cons, maxMtime_cons, fileDescMtimesF, maxMtime_append,
          mtime_of_ok hc, ih hrest]
  rw [hmap]
  omega

mutual

/-- `recomputeFolderMtime` establishes the folder-mtime invariant. -/
theorem recomputeNode_ok : ∀ t, MtimeOk (recomputeNode t)
  | .file p n m s e => .file p n m s e
  | .folder p n _ cs => by
    have hF := recomputeList_ok cs
    exact MtimeOk.folder _ _ _ _ hF (foldl_children_mtimes _ hF)

/-- `recomputeFolderMtime` establishes the invariant across a forest. -/
theorem recomputeList_ok : ∀ l, MtimeOkF (recomputeList l)
  | [] => .nil
  | c :: rest => .cons _ _ (recomputeNode_ok c) (recomputeList_ok rest)

end

/-- C3: for every file list and sort order, every folder node of the built
tree carries exactly the maximum modification time over its transitive file
descendants; a folder with no file descendants carries `0` (the maximum of the
empty list), with no error. -/
theorem buildFileTree_folder_mtimes (files : List ApiFile) (so : SortOrder) :
    MtimeOkF (buildFileTree files so) ∧ maxMtime [] = 0 := by
  refine ⟨?_, rfl⟩
  unfold buildFileTree sortForest
  rw [mtimeOkF_iff]
  intro c hc
  exact (mtimeOkF_iff _).mp
    (sortKids_mtimeOk so _ (recomputeList_ok _)) c (mem_sortChildren.mp hc)

mutual

/-- Pruning is reflexive on nodes. -/
theorem prunedNode_refl : ∀ t : TreeNode, PrunedNode t t
  | .file p n m s e => .file p n m s e
  | .folder p n m cs => .folder p n m cs cs (prunedForest_refl cs)

/-- Pruning is reflexive on forests. -/
theorem prunedForest_refl : ∀ l : List TreeNode, PrunedForest l l
  | [] => .nil
  | c :: rest => .keep c c rest rest (prunedNode_refl c) (prunedForest_refl rest)

end

mutual

/-- A surviving filtered node is a pruning of the original. -/
theorem filterNode_pruned (q : String) : ∀ (t t' : TreeNode),
    (filterNode q t).1 = some t' → PrunedNode t' t
  | .file p n m s e, t', h => by
    simp only [filterNode] at h
    split at h
    · injection h with h
      subst h
      exact .file p n m s e
    · cases h
  | .folder p n m cs, t', h => by
    simp only [filterNode] at h
    split at h
    · cases h
    · injection h with h
      subst h
      exact .folder p n m _ cs (filterForest_pruned q cs)

/-- The surviving filtered children are an order-preserving pruning of the
original sibling list. -/
theorem filterForest_pruned (q : String) : ∀ l : List TreeNode,
    PrunedForest (filterForest q l).1 l
  | [] => .nil
  | c :: rest => by
    simp only [filterForest]
    cases hc : (filterNode q c).1 with
    | none => exact .drop c _ rest (filterForest_pruned q rest)
    | some n =>
      exact .keep n c _ rest (filterNode_pruned q c n hc) (filterForest_pruned q rest)

end

/-- C10: for every forest and filter text, `filterTree` only prunes nodes and
never reorders siblings — its surviving forest is an order-preserving pruning
of the input forest at every level, so the sibling order established by
`buildFileTree`'s sort survives filtering. -/
theorem filterTree_preserves_order (nodes : List TreeNode) (filterText : String) :
    PrunedForest (filterTree nodes filterText).1 nodes := by
  unfold filterTree
  split
  · exact prunedForest_refl nodes
  · exact filterForest_pruned _ nodes

/-- A forest containing a node is nonempty. -/
theorem inforest_isEmpty_false {f : TreeNode} {l : List TreeNode}
    (h : InForest f l) : l.isEmpty = false := by
  cases h <;> rfl

mutual

/-- A matching file inside a subtree survives `filterRec` of that subtree. -/
theorem filterNode_keeps_file (q : String) : ∀ (c f : TreeNode),
    InNode f c → f.isFile = true →
    strIncludes (strLower (toPosixPath f.path)) q = true →
    ∃ c', (filterNode q c).1 = some c' ∧ InNode f c'
  | .file p n m s e, f, hin, _, hmatch => by
    cases hin with
    | refl =>
      have hm2 : strIncludes (strLower (toPosixPath p)) q = true := hmatch
      refine ⟨.file p n m s e, ?_, InNode.refl _⟩
      simp [filterNode, hm2]
  | .folder p n m cs, f, hin, hfile, hmatch => by
    cases hin with
    | refl => simp [TreeNode.isFile] at hfile
    | child _ _ _ _ hforest =>
      have hsub := filterForest_keeps_file q cs f hforest hfile hmatch
      have hne : (filterForest q cs).1.isEmpty = false :=
        inforest_isEmpty_false hsub
      refine ⟨.folder p n m (filterForest q cs).1, ?_,
        InNode.child f p n m _ hsub⟩
      simp [filterNode, hne]

/-- A matching file inside a forest survives `filterRec` of that forest. -/
theorem filterForest_keeps_file (q : String) : ∀ (nodes : List TreeNode)
    (f : TreeNode), InForest f nodes → f.isFile = true →
    strIncludes (strLower (toPosixPath f.path)) q = true →
    InForest f (filterForest q nodes).1
  | [], _, hin, _, _ => by cases hin
  | c :: rest, f, hin, hfile, hmatch => by
    cases hin with
    | head _ _ hn =>
      obtain ⟨c', hc', hin'⟩ := filterNode_keeps_file q c f hn hfile hmatch
      simp only [filterForest]
      rw [hc']
      exact InForest.head _ _ _ hin'
    | tail _ _ hrest =>
      have h2 := filterForest_keeps_file q rest f hrest hfile hmatch
      simp only [filterForest]
      cases hc : (filterNode q c).1 with
      | none => exact h2
      | some n => exact InForest.tail _ _ _ h2

end

mutual

/-- Every folder surviving inside a filtered subtree had its path added to the
auto-expand set. -/
theorem filterNode_folders_expanded (q : String) : ∀ (c g c' : TreeNode),
    (filterNode q c).1 = some c' → InNode g c' → g.isFolder = true →
    g.path ∈ (filterNode q c).2
  | .file p n m s e, g, c', hsome, hin, hfold => by
    simp only [filterNode] at hsome
    split at hsome
    · injection hsome with h
      subst h
      cases hin with
      | refl => simp [TreeNode.isFolder] at hfold
    · cases hsome
  | .folder p n m cs, g, c', hsome, hin, hfold => by
    simp only [filterNode] at hsome ⊢
    by_cases hne : (filterForest q cs).1.isEmpty = true
    · simp only [hne, if_true] at hsome
      cases hsome
    · simp only [hne, if_false, Bool.false_eq_true] at hsome ⊢
      injection hsome with h
      subst h
      cases hin with
      | refl =>
        show p ∈ (filterForest q cs).2 ++ [p]
        exact List.mem_append_right _ (List.mem_singleton.mpr rfl)
      | child _ _ _ _ hforest =>
        exact List.mem_append_left _
          (filterForest_folders_expanded q cs g hforest hfold)

/-- Every folder surviving inside a filtered forest had its path added to the
auto-expand set. -/
theorem filterForest_folders_expanded (q : String) : ∀ (nodes : List TreeNode)
    (g : TreeNode), InForest g (filterForest q nodes).1 → g.isFolder = true →
    g.path ∈ (filterForest q nodes).2
  | [], g, hin, _ => by
    simp only [filterForest] at hin
    cases hin
  | c :: rest, g, hin, hfold => by
    simp only [filterForest] at hin ⊢
    cases hc : (filterNode q c).1 with
    | none =>
      rw [hc] at hin
      exact List.mem_append_right _
        (filterForest_folders_expanded q rest g hin hfold)
    | some n =>
      rw [hc] at hin
      cases hin with
      | head _ _ hn =>
        exact List.mem_append_left _
          (filterNode_folders_expanded q c g n hc hn hfold)
      | tail _ _ htl =>
        exact List.mem_append_right _
          (filterForest_folders_expanded q rest g htl hfold)

end

mutual

/-- When every folder of a subtree is auto-expanded, every node of the subtree
appears in its flattened walk. -/
theorem walkNode_complete (exp ae : List String) : ∀ (depth : Nat)
    (c t : TreeNode), InNode t c →
    (∀ g, InNode g c → g.isFolder = true → g.path ∈ ae) →
    ∃ d, (⟨t, d⟩ : VisibleNode) ∈ walkNode exp ae depth c
  | depth, .file p n m s e, t, hin, _ => by
    cases hin with
    | refl => exact ⟨depth, by simp [walkNode]⟩
  | depth, .folder p n m cs, t, hin, hexp => by
    cases hin with
    | refl => exact ⟨depth, by simp [walkNode]⟩
    | child _ _ _ _ hforest =>
      have hpae : p ∈ ae :=
        hexp (.folder p n m cs) (InNode.refl _) rfl
      have hcond : (exp.contains p || ae.contains p) = true := by
        simp [hpae]
      obtain ⟨d, hd⟩ := walkForest_complete exp ae (depth + 1) cs t hforest
        (fun g hg hfold => hexp g (InNode.child g p n m cs hg) hfold)
      refine ⟨d, ?_⟩
      simp only [walkNode]
      rw [if_pos hcond]
      exact List.mem_cons_of_mem _ hd

/-- When every folder of a forest is auto-expanded, every node of the forest
appears in its flattened walk. -/
theorem walkForest_complete (exp ae : List String) : ∀ (depth : Nat)
    (nodes : List TreeNode) (t : TreeNode), InForest t nodes →
    (∀ g, InForest g nodes → g.isFolder = true → g.path ∈ ae) →
    ∃ d, (⟨t, d⟩ : VisibleNode) ∈ walkForest exp ae depth nodes
  | _, [], _, hin, _ => by cases hin
  | depth, c :: rest, t, hin, hexp => by
    cases hin with
    | head _ _ hn =>
      obtain ⟨d, hd⟩ := walkNode_complete exp ae depth c t hn
        (fun g hg hfold => hexp g (InForest.head g c rest hg) hfold)
      exact ⟨d, by
        simp only [walkForest]
        exact List.mem_append_left _ hd⟩
    | tail _ _ htl =>
      obtain ⟨d, hd⟩ := walkForest_complete exp ae depth rest t htl
        (fun g hg hfold => hexp g (InForest.tail g c rest hg) hfold)
      exact ⟨d, by
        simp only [walkForest]
        exact List.mem_append_right _ hd⟩

end

/-- C7: with a nonempty (trimmed, lower-cased) filter text and a file in the
forest whose normalised lower-cased path contains it, every folder surviving
the filter — in particular every ancestor folder of a surviving file — has its
path in the auto-expand set, and flattening the filtered forest with that
auto-expand set (unioned with any manually expanded set) lists the matching
file. -/
theorem filter_auto_expands_matches (nodes : List TreeNode)
    (filterText : String) (expanded : List String) (f : TreeNode)
    (hq : (strLower (strTrim filterText)).data ≠ [])
    (hf : InForest f nodes) (hfile : f.isFile = true)
    (hmatch : strIncludes (strLower (toPosixPath f.path))
      (strLower (strTrim filterText)) = true) :
    (∀ g, InForest g (filterTree nodes filterText).1 → g.isFolder = true →
        g.path ∈ (filterTree nodes filterText).2) ∧
    (∃ d, (⟨f, d⟩ : VisibleNode) ∈
      flattenVisibleNodes (filterTree nodes filterText).1 expanded
        (filterTree nodes filterText).2) := by
  have hft : filterTree nodes filterText =
      filterForest (strLower (strTrim filterText)) nodes := by
    unfold filterTree
    rw [if_neg (fun hh => hq (List.isEmpty_iff.mp hh))]
  rw [hft]
  refine ⟨fun g hg hfold =>
    filterForest_folders_expanded _ nodes g hg hfold, ?_⟩
  have hsurv := filterForest_keeps_file _ nodes f hf hfile hmatch
  exact walkForest_complete expanded _ 0 _ f hsurv
    (fun g hg hfold => filterForest_folders_expanded _ nodes g hg hfold)

/-- Witness for C7: filtering a two-level tree for `"c"` auto-expands both
ancestor folders of the matching nested file and the flattened visible list
contains it. -/
theorem filter_auto_expands_matches_witness :
    "docs" ∈ (filterTree
      [TreeNode.folder "docs" "docs" 7
        [.folder "docs/sub" "sub" 7 [.file "docs/sub/c.md" "c.md" 7 false none]]]
      "c").2 ∧
    (∃ d, (⟨.file "docs/sub/c.md" "c.md" 7 false none, d⟩ : VisibleNode) ∈
      flattenVisibleNodes
        (filterTree
          [TreeNode.folder "docs" "docs" 7
            [.folder "docs/sub" "sub" 7
              [.file "docs/sub/c.md" "c.md" 7 false none]]]
          "c").1
        []
        (filterTree
          [TreeNode.folder "docs" "docs" 7
            [.folder "docs/sub" "sub" 7
              [.file "docs/sub/c.md" "c.md" 7 false none]]]
          "c").2) := by
  have h := filter_auto_expands_matches
    [TreeNode.folder "docs" "docs" 7
      [.folder "docs/sub" "sub" 7 [.file "docs/sub/c.md" "c.md" 7 false none]]]
    "c" [] (.file "docs/sub/c.md" "c.md" 7 false none)
    (by decide)
    (.head _ _ _ (.child _ _ _ _ _ (.head _ _ _ (.child _ _ _ _ _
      (.head _ _ _ (.refl _))))))
    rfl
    (by decide)
  refine ⟨?_, h.2⟩
  exact h.1
    (.folder "docs" "docs" 7
      [.folder "docs/sub" "sub" 7 [.file "docs/sub/c.md" "c.md" 7 false none]])
    (.head _ _ _ (.refl _)) rfl

/-- The recursion of `sortRec` mapped over a sibling list. -/
theorem sortKids_eq_map (so : SortOrder) :
    ∀ cs : List TreeNode, sortKids so cs = cs.map (sortNode so)
  | [] => rfl
  | c :: rest => by rw [sortKids, List.map_cons, sortKids_eq_map so rest]

/-- Recursive sorting keeps the node kind. -/
theorem sortNode_isFolder (so : SortOrder) (t : TreeNode) :
    (sortNode so t).isFolder = t.isFolder := by
  cases t <;> rfl

/-- Recursive sorting keeps the node kind. -/
theorem sortNode_isFile (so : SortOrder) (t : TreeNode) :
    (sortNode so t).isFile = t.isFile := by
  cases t <;> rfl

/-- Recursive sorting keeps the node name. -/
theorem sortNode_name (so : SortOrder) (t : TreeNode) :
    (sortNode so t).name = t.name := by
  cases t <;> rfl

/-- Recursive sorting keeps the node mtime. -/
theorem sortNode_mtimeMs (so : SortOrder) (t : TreeNode) :
    (sortNode so t).mtimeMs = t.mtimeMs := by
  cases t <;> rfl

/-- The comparator cannot tell a recursively sorted node from the original:
it only reads `name` and `mtimeMs`. -/
theorem sortLe_sortNode (so : SortOrder) (a b : TreeNode) :
    sortLe so (sortNode so a) (sortNode so b) = sortLe so a b := by
  cases so <;>
    simp only [sortLe, sortCmp, sortNode_name, sortNode_mtimeMs]

/-- Fidelity of `sortNode` to the source's `sortRec`, which assigns
`node.children = sortChildren(node.children, sortOrder)` and then recurses
into the sorted children: sorting the siblings first and recursing afterwards
gives the same tree as recursing first and sorting afterwards, because the
comparator only reads fields recursion preserves. -/
theorem sortNode_source_order (so : SortOrder) (p n : String) (m : Nat)
    (cs : List TreeNode) :
    sortNode so (.folder p n m cs) =
      .folder p n m ((sortChildren cs so).map (sortNode so)) := by
  show TreeNode.folder p n m (sortChildren (sortKids so cs) so) = _
  congr 1
  rw [sortKids_eq_map]
  unfold sortChildren
  rw [List.map_append]
  have hfolder : (cs.map (sortNode so)).filter TreeNode.isFolder =
      (cs.filter TreeNode.isFolder).map (sortNode so) := by
    rw [List.filter_map]
    congr 1
    exact List.filter_congr (fun x _ => (sortNode_isFolder so x))
  have hfile : (cs.map (sortNode so)).filter TreeNode.isFile =
      (cs.filter TreeNode.isFile).map (sortNode so) := by
    rw [List.filter_map]
    congr 1
    exact List.filter_congr (fun x _ => (sortNode_isFile so x))
  rw [hfolder, hfile]
  rw [List.map_mergeSort (fun a _ b _ => (sortLe_sortNode so a b).symm),
    List.map_mergeSort (fun a _ b _ => (sortLe_sortNode so a b).symm)]

end LMV
